import Mathlib

set_option maxRecDepth 100000

/-!
Verification development for the GeoOffice-Synchronization repository.

The Python sources are shallowly embedded as executable Lean definitions:

* `ProjectFileUtils.is_uid` / `set_uid` / `read_project_file`
  (src/utils/project_file_utils.py), including a faithful model of the
  CPython `uuid.UUID(hex)` constructor and the `int(s, 16)` parser it uses;
* `DatabaseService` (src/services/database_service.py) over an explicit
  catalog state (rows in insertion order, a next-id counter, and a logical
  clock standing for `datetime.now()`, bumped on every call so successive
  timestamps strictly increase);
* `SynchronizationService` (src/services/synchronization_service.py):
  the filesystem scanner, the database snapshot, the matched-identity
  update loop, the untokened-adoption loop, and the full pass.

Python `dict`s are modelled as association lists with in-place value
overwrite on key collision (Python keeps the first-insertion position of a
key and replaces its value), which preserves both lookup results and
iteration order. Python `set`s are modelled as duplicate-free lists in
first-insertion order; none of the proved properties depends on the
iteration order of a set.
-/

namespace GeoOffice

/-! ## Python string primitives (character-list level) -/

/-- Characters CPython's `str.strip()` and `int()` treat as whitespace
(the ASCII ones; sentinel files are ASCII UUID material). -/
def pyWhite (c : Char) : Bool :=
  c = ' ' || c = '\t' || c = '\n' || c = '\x0d' || c = '\x0b' || c = '\x0c'

/-- Drop the longest suffix whose characters satisfy `p`. -/
def dropTrail (p : Char → Bool) (l : List Char) : List Char :=
  (l.reverse.dropWhile p).reverse

/-- CPython `str.strip()` on a character list. -/
def pyStripL (l : List Char) : List Char :=
  dropTrail pyWhite (l.dropWhile pyWhite)

/-- CPython `str.strip(chars)`: remove leading and trailing characters
drawn from `cs`. -/
def pyStripCharsL (cs : List Char) (l : List Char) : List Char :=
  dropTrail (fun c => cs.contains c) (l.dropWhile (fun c => cs.contains c))

/-- Fuel-indexed worker for `str.replace(pat, "")`: delete every
non-overlapping occurrence of `pat`, scanning left to right. -/
def removeOccFuel (pat : List Char) : Nat → List Char → List Char
  | _, [] => []
  | 0, s => s
  | fuel + 1, c :: rest =>
    if pat ≠ [] ∧ pat.isPrefixOf (c :: rest) then
      removeOccFuel pat fuel ((c :: rest).drop pat.length)
    else
      c :: removeOccFuel pat fuel rest

/-- CPython `s.replace(pat, "")` for a non-empty pattern. -/
def removeOcc (pat s : List Char) : List Char :=
  removeOccFuel pat s.length s

/-- Numeric value of one hexadecimal digit (`0`-`9`, `a`-`f`, `A`-`F`,
stated on code points: 48-57, 97-102, 65-70). -/
def hexVal (c : Char) : Option Nat :=
  if 48 ≤ c.toNat ∧ c.toNat ≤ 57 then some (c.toNat - 48)
  else if 97 ≤ c.toNat ∧ c.toNat ≤ 102 then some (c.toNat - 97 + 10)
  else if 65 ≤ c.toNat ∧ c.toNat ≤ 70 then some (c.toNat - 65 + 10)
  else none

/-- Digit tail of CPython's base-16 literal grammar: after one digit,
either the string ends, another digit follows, or a single underscore
followed by a digit follows. -/
def hexTail (acc : Nat) : List Char → Option Nat
  | [] => some acc
  | c :: rest =>
    if c = '_' then
      match rest with
      | [] => none
      | c2 :: rest2 =>
        match hexVal c2 with
        | some v => hexTail (acc * 16 + v) rest2
        | none => none
    else
      match hexVal c with
      | some v => hexTail (acc * 16 + v) rest
      | none => none

/-- `d (('_')? d)*`: at least one hex digit, single underscores only
between digits. -/
def hexDigits : List Char → Option Nat
  | [] => none
  | c :: rest =>
    match hexVal c with
    | some v => hexTail v rest
    | none => none

/-- Sign handling of CPython's integer literal parser: one optional
leading `+` or `-`; the flag records a minus sign. -/
def pySign (l : List Char) : Bool × List Char :=
  match l with
  | [] => (false, [])
  | c :: r =>
    if c = '+' then (false, r)
    else if c = '-' then (true, r)
    else (false, c :: r)

/-- Base-marker handling of CPython's base-16 parser: an optional leading
`0x`/`0X`, which may be followed by one underscore. -/
def pyDrop0x (l : List Char) : List Char :=
  match l with
  | c0 :: c1 :: r =>
    if c0 = '0' ∧ (c1 = 'x' ∨ c1 = 'X') then
      match r with
      | c2 :: r2 => if c2 = '_' then r2 else c2 :: r2
      | [] => []
    else l
  | _ => l

/-- CPython `int(s, 16)`: optional surrounding whitespace, optional sign,
optional `0x`/`0X` marker (an underscore may follow it), then hex digits
with single underscores between digits.  `none` models `ValueError`. -/
def pyIntHex (l : List Char) : Option Int :=
  match hexDigits (pyDrop0x (pySign (pyStripL l)).2) with
  | some n => some (if (pySign (pyStripL l)).1 then -(n : Int) else (n : Int))
  | none => none

/-- The string normalization CPython `uuid.UUID(hex=h)` performs before
parsing:
`h.replace('urn:','').replace('uuid:','').strip('\x7b\x7d').replace('-','')`. -/
def uuidHexPart (h : List Char) : List Char :=
  removeOcc ['-'] (pyStripCharsL ['{', '}']
    (removeOcc ['u', 'u', 'i', 'd', ':'] (removeOcc ['u', 'r', 'n', ':'] h)))

/-- The body of CPython `uuid.UUID(hex=h)`: the normalization above, then
a length-32 check, `int(_, 16)`, and the `0 ≤ n < 2^128` range check.
`false` models the constructor raising. -/
def uuidCtorOk (h : List Char) : Bool :=
  if (uuidHexPart h).length = 32 then
    match pyIntHex (uuidHexPart h) with
    | some n => decide (0 ≤ n ∧ n < 2 ^ 128)
    | none => false
  else false

namespace ProjectFileUtils

/-- `ProjectFileUtils.is_uid` (src/utils/project_file_utils.py): empty
string is rejected outright; otherwise the string is wrapped in braces and
fed to `uuid.UUID`, with `ValueError` (and any other exception) mapped to
`False`. -/
def is_uid (s : String) : Bool :=
  if s = "" then false
  else uuidCtorOk ('{' :: s.data ++ ['}'])

end ProjectFileUtils

/-! ## The spec-side notion of a canonical UUID

Used to compare `is_uid` with the specification's words ("parses as a
canonical 128-bit UUID in RFC-4122 textual form"): five hyphen-separated
groups of 8, 4, 4, 4 and 12 hexadecimal digits. -/

/-- Consume exactly `n` hexadecimal digits, returning the remainder. -/
def takeHex : Nat → List Char → Option (List Char)
  | 0, l => some l
  | _ + 1, [] => none
  | n + 1, c :: rest => if (hexVal c).isSome then takeHex n rest else none

/-- Canonical RFC-4122 textual form on a character list:
`8-4-4-4-12` hexadecimal digits. -/
def canonicalUUIDL (l : List Char) : Bool :=
  match takeHex 8 l with
  | some ('-' :: r1) =>
    match takeHex 4 r1 with
    | some ('-' :: r2) =>
      match takeHex 4 r2 with
      | some ('-' :: r3) =>
        match takeHex 4 r3 with
        | some ('-' :: r4) => takeHex 12 r4 = some []
        | _ => false
      | _ => false
    | _ => false
  | _ => false

/-- Canonical RFC-4122 textual form of a UUID, on strings. -/
def canonicalUUID (s : String) : Bool := canonicalUUIDL s.data

/-! ## Python dict and set models -/

/-- Python `d[k] = v`: replace the value in place if `k` is already a key
(Python keeps the key's original position), else append a new entry. -/
def dictInsert {α β : Type} [DecidableEq α] (m : List (α × β)) (k : α) (v : β) :
    List (α × β) :=
  if m.any (fun p => p.1 = k) then
    m.map (fun p => if p.1 = k then (k, v) else p)
  else m ++ [(k, v)]

/-- Python `d.get(k)` / `k in d` lookup on the association-list model. -/
def dictLookup {α β : Type} [DecidableEq α] (m : List (α × β)) (k : α) : Option β :=
  (m.find? (fun p => p.1 = k)).map (fun p => p.2)

/-- Python `set.add`: sets are modelled as duplicate-free lists in
first-insertion order. -/
def setAdd {α : Type} [DecidableEq α] (s : List α) (x : α) : List α :=
  if x ∈ s then s else s ++ [x]

/-- First key of `m` (in iteration order) whose value is `v`; models the
`for path, path_uid in d.items(): if path_uid == uid: ... break` loops. -/
def firstKeyWithValue {α β : Type} [DecidableEq β] (m : List (α × β)) (v : β) :
    Option α :=
  (m.find? (fun p => p.2 = v)).map (fun p => p.1)

/-- Build a dict from an entry list by repeated insertion (the shape every
`result[...] = ...` loop of the source reduces to). -/
def dictOf {α β : Type} [DecidableEq α] (l : List (α × β)) : List (α × β) :=
  l.foldl (fun m kv => dictInsert m kv.1 kv.2) []

/-! ## Data model (src/models/database_model.py)

Paths are modelled as lists of path components; the string form of a path
is its component list, so string equality of paths is component-list
equality.  Timestamps are `Nat` values of a logical clock. -/

/-- One row of the `Объекты` (projects) table. -/
structure ProjectRec where
  id : Nat
  name : String
  path : List String
  uid : String
  status : String
  created_date : Nat
  modified_date : Nat
deriving DecidableEq, Repr

/-- Catalog state: rows in insertion order (Pony iteration order), the
auto-increment counter, and a logical clock modelling `datetime.now()`
(bumped on every call, so successive stamps strictly increase). -/
structure DBState where
  rows : List ProjectRec
  next_id : Nat
  clock : Nat
deriving DecidableEq, Repr

namespace DatabaseService

/-- `DatabaseService.get_all_projects`: `Project.select()[:]`, modelled as
the rows in insertion order. -/
def get_all_projects (db : DBState) : List ProjectRec := db.rows

/-- `DatabaseService.create_project`: inserts a row; `status` defaults to
`"active"` and both timestamps default to `datetime.now()` (model fields of
src/models/database_model.py). -/
def create_project (db : DBState) (name : String) (path : List String)
    (uid : String) : DBState × ProjectRec :=
  let r : ProjectRec :=
    { id := db.next_id, name := name, path := path, uid := uid,
      status := "active", created_date := db.clock, modified_date := db.clock }
  ({ rows := db.rows ++ [r], next_id := db.next_id + 1, clock := db.clock + 1 }, r)

/-- `DatabaseService.get_project_from_uid`: Pony `Project.get(uid=uid)`
returns `None` when no row matches and raises when several rows match;
every caller in the synchronization service wraps the call in a
`try/except` that skips the item, so the raising case is modelled as
`none` as well. -/
def get_project_from_uid (db : DBState) (uid : String) : Option ProjectRec :=
  match db.rows.filter (fun r => r.uid = uid) with
  | [r] => some r
  | _ => none

/-- `DatabaseService.update_project_path`: sets `path` and stamps
`modified_date = datetime.now()`. -/
def update_project_path (db : DBState) (pid : Nat) (new_rel_path : List String) :
    DBState :=
  { rows := db.rows.map (fun r =>
      if r.id = pid then { r with path := new_rel_path, modified_date := db.clock }
      else r),
    next_id := db.next_id, clock := db.clock + 1 }

/-- `DatabaseService.update_project_name`: sets `name` and stamps
`modified_date`. -/
def update_project_name (db : DBState) (pid : Nat) (name : String) : DBState :=
  { rows := db.rows.map (fun r =>
      if r.id = pid then { r with name := name, modified_date := db.clock }
      else r),
    next_id := db.next_id, clock := db.clock + 1 }

/-- `DatabaseService.mark_deleted_project`: the source assigns the literal
string `"delete"` (not `"deleted"`) and stamps `modified_date`. -/
def mark_deleted_project (db : DBState) (pid : Nat) : DBState :=
  { rows := db.rows.map (fun r =>
      if r.id = pid then { r with status := "delete", modified_date := db.clock }
      else r),
    next_id := db.next_id, clock := db.clock + 1 }

/-- `DatabaseService.mark_active_project`: assigns `"active"` and stamps
`modified_date`. -/
def mark_active_project (db : DBState) (pid : Nat) : DBState :=
  { rows := db.rows.map (fun r =>
      if r.id = pid then { r with status := "active", modified_date := db.clock }
      else r),
    next_id := db.next_id, clock := db.clock + 1 }

end DatabaseService

/-! ## Filesystem model and file utilities -/

/-- `PROJECT_FILE_NAME` from src/__init__.py. -/
def projectFileName : String := ".geo_office_project"

/-- One sentinel file: the absolute path of its directory (as components)
and its raw content, `none` when the file cannot be read. -/
structure FSFile where
  dir : List String
  content : Option String
deriving DecidableEq, Repr

/-- Modelled from the spec: `FileUtils.get_relative_path` is called by
`SynchronizationService._scan_files_for_projects` but is absent from
src/utils/file_utils.py.  Per spec §4.2 it performs a prefix match of the
resolved paths, yielding the path of `p` relative to `base` when `p` lies
under `base` and `None` otherwise.  The truthiness test
`if FileUtils.get_relative_path(...)` in the scanner is modelled by
`Option.isSome`; the only falsy relative path Python could produce is the
empty string, which `str(Path)` never returns (`Path` renders the empty
relative path as `"."`). -/
def get_relative_path (base p : List String) : Option (List String) :=
  if base.isPrefixOf p then some (p.drop base.length) else none

namespace ProjectFileUtils

/-- `ProjectFileUtils.read_project_file`: reads the file and applies
`str.strip()`; `None` on a read error. -/
def read_project_file (f : FSFile) : Option String :=
  f.content.map (fun c => String.mk (pyStripL c.data))

end ProjectFileUtils

/-- `Path(...).name` of a component path: its last component (empty for
the empty path, as `Path('.').name == ''`). -/
def leafName (p : List String) : String := p.getLast?.getD ""

/-- Python `s.startswith(pre)`: character-level prefix test. -/
def pyStartsWith (s pre : String) : Bool := pre.data.isPrefixOf s.data

/-- Writing a file (`open(path, "w")`): overwrite the content if a file at
that directory exists, else create it. -/
def fsWrite (files : List FSFile) (dir : List String) (c : String) : List FSFile :=
  if files.any (fun f => f.dir = dir) then
    files.map (fun f => if f.dir = dir then { f with content := some c } else f)
  else files ++ [{ dir := dir, content := some c }]

/-! ## SynchronizationService (src/services/synchronization_service.py) -/

/-- State threaded through one synchronization pass: the catalog, the
sentinel files, and the stream of fresh tokens that models successive
`uuid.uuid4()` draws in `ProjectFileUtils.set_uid` (empty stream models
`set_uid` failing and returning `None`, which makes the caller skip the
entry). -/
structure SyncState where
  db : DBState
  files : List FSFile
  supply : List String
deriving DecidableEq, Repr

namespace SynchronizationService

/-- `projects_root_path.rglob(PROJECT_FILE_NAME)`: every sentinel file
whose directory lies under the projects root, in traversal order. -/
def rglob (root : List String) (files : List FSFile) : List FSFile :=
  files.filter (fun f => root.isPrefixOf f.dir)

/-- `SynchronizationService._scan_files_for_projects`: for each sentinel
file under the root, skip it when its full path lies under the template
exclusion directory, skip it when unreadable, and otherwise record
`result[str(rel_path)] = uid_content` keyed by the parent directory's path
relative to the root. -/
def scan_files_for_projects (root tmpl : List String) (files : List FSFile) :
    List (List String × String) :=
  (rglob root files).foldl (fun result f =>
    if (get_relative_path tmpl (f.dir ++ [projectFileName])).isSome then result
    else
      match ProjectFileUtils.read_project_file f with
      | none => result
      | some c =>
        match get_relative_path root f.dir with
        | some rel => dictInsert result rel c
        | none => result) []

/-- `SynchronizationService._get_projects_from_database`: the
`{path: uid}` snapshot over all rows whose status is not the literal
`"deleted"`; a repeated path silently overwrites the earlier value
(the `FIXME` case in the source). -/
def get_projects_from_database (db : DBState) : List (List String × String) :=
  (DatabaseService.get_all_projects db).foldl (fun result r =>
    if r.status ≠ "deleted" then dictInsert result r.path r.uid else result) []

/-- Derived notion: the rows the snapshot loop keeps (status is not the
literal `"deleted"`), in iteration order. -/
def activeRows (db : DBState) : List ProjectRec :=
  db.rows.filter (fun r => r.status ≠ "deleted")

/-- One iteration of the `for uid in common_uids` loop of
`SynchronizationService._sync_common_uids`.  The Python guard
`if db_rel_path and fs_rel_path` tests truthiness; both operands are
non-empty strings whenever they are not `None` (catalog paths are Pony
`Required(str)`, scanner keys are `str(Path)`), so the guard is modelled
by the `some`/`some` match.  `tmplName` is `self.template_exc_path.name`. -/
def sync_common_uids_step (tmplName : String)
    (projects_from_db projects_from_fs : List (List String × String))
    (db : DBState) (uid : String) : DBState :=
  match firstKeyWithValue projects_from_db uid,
        firstKeyWithValue projects_from_fs uid with
  | some db_rel_path, some fs_rel_path =>
    if db_rel_path ≠ fs_rel_path then
      match DatabaseService.get_project_from_uid db uid with
      | some project =>
        let db1 := DatabaseService.update_project_path db project.id fs_rel_path
        if pyStartsWith project.name tmplName then
          DatabaseService.update_project_name db1 project.id (leafName fs_rel_path)
        else db1
      | none => db
    else db
  | _, _ => db

/-- `SynchronizationService._sync_common_uids`. -/
def sync_common_uids (tmplName : String) (common_uids : List String)
    (projects_from_db projects_from_fs : List (List String × String))
    (db : DBState) : DBState :=
  common_uids.foldl (sync_common_uids_step tmplName projects_from_db projects_from_fs) db

/-- `SynchronizationService._sync_db_only_uids` — present in the source
but never called from `_sync_projects` (the call site is commented out). -/
def sync_db_only_uids (db_only_uids : List String) (db : DBState) : DBState :=
  db_only_uids.foldl (fun db uid =>
    match DatabaseService.get_project_from_uid db uid with
    | some project => DatabaseService.mark_deleted_project db project.id
    | none => db) db

/-- `SynchronizationService._sync_file_only_uids` — present in the source
but never called from `_sync_projects` (the call site is commented out). -/
def sync_file_only_uids (file_only_uids : List String)
    (projects_from_fs : List (List String × String)) (db : DBState) : DBState :=
  file_only_uids.foldl (fun db uid =>
    match firstKeyWithValue projects_from_fs uid with
    | some file_path =>
      (DatabaseService.create_project db (leafName file_path) file_path uid).1
    | none => db) db

/-- One iteration of the `for rel_path, uid in projects_from_fs.items()`
loop of `SynchronizationService._sync_files_without_uid`: entries whose
content is a valid UID are skipped; otherwise `set_uid` writes a fresh
token into the sentinel file (at `projects_root / rel_path /
PROJECT_FILE_NAME`) and a catalog row is created with
`name = absolute_path.parent.name` and `path = rel_path`.  A failing
`set_uid` (exhausted supply) leads to the `except` branch: the entry is
skipped with no write and no row. -/
def sync_files_without_uid_step (root : List String) (st : SyncState)
    (kv : List String × String) : SyncState :=
  if ProjectFileUtils.is_uid kv.2 then st
  else
    match st.supply with
    | [] => st
    | u :: rest =>
      let files1 := fsWrite st.files (root ++ kv.1) u
      let db1 := (DatabaseService.create_project st.db (leafName (root ++ kv.1)) kv.1 u).1
      { db := db1, files := files1, supply := rest }

/-- `SynchronizationService._sync_files_without_uid`. -/
def sync_files_without_uid (root : List String)
    (projects_from_fs : List (List String × String)) (st : SyncState) : SyncState :=
  projects_from_fs.foldl (sync_files_without_uid_step root) st

/-- The `for path, uid in d.items(): if is_uid(uid): s.add(uid)` loops of
`_sync_projects`, used for both the catalog and the filesystem snapshot. -/
def validUidSet (m : List (List String × String)) : List String :=
  m.foldl (fun s kv => if ProjectFileUtils.is_uid kv.2 then setAdd s kv.2 else s) []

/-- `SynchronizationService._sync_projects`: builds the valid-UID sets
from both snapshots, handles the common UIDs, and handles the files
without a UID.  The `db_only`/`file_only` branches are commented out in
the source and therefore do not appear here. -/
def sync_projects (root tmpl : List String)
    (projects_from_db projects_from_fs : List (List String × String))
    (st : SyncState) : SyncState :=
  let db_uids := validUidSet projects_from_db
  let file_uids := validUidSet projects_from_fs
  let common_uids := db_uids.filter (fun u => u ∈ file_uids)
  let db1 := sync_common_uids (leafName tmpl) common_uids
    projects_from_db projects_from_fs st.db
  sync_files_without_uid root projects_from_fs { st with db := db1 }

/-- The body of `SynchronizationService._process_sync_task`: scan the
filesystem, snapshot the catalog, and synchronize. -/
def run_pass (root tmpl : List String) (st : SyncState) : SyncState :=
  let projects_from_fs := scan_files_for_projects root tmpl st.files
  let projects_from_db := get_projects_from_database st.db
  sync_projects root tmpl projects_from_db projects_from_fs st

/-- Derived characterization of one scanner-loop iteration: the entry a
sentinel file contributes, or `none` when the file is skipped (template
subtree, unreadable, or outside the root). -/
def keptEntry (root tmpl : List String) (f : FSFile) :
    Option (List String × String) :=
  if (get_relative_path tmpl (f.dir ++ [projectFileName])).isSome then none
  else
    match ProjectFileUtils.read_project_file f with
    | none => none
    | some c =>
      match get_relative_path root f.dir with
      | some rel => some (rel, c)
      | none => none

/-- All entries the scanner keeps, in traversal order (before the dict
collapses duplicate keys). -/
def keptEntries (root tmpl : List String) (files : List FSFile) :
    List (List String × String) :=
  (rglob root files).filterMap (keptEntry root tmpl)

/-! ### Scheduler front end (`synchronize` / `_validate_paths`) -/

/-- State visible to `SynchronizationService.synchronize`: the task queue
and the two path-existence facts probed by `_validate_paths`.  The catalog
is carried along only to express that enqueueing never touches it. -/
structure SchedState where
  queue : List String
  server_path_exists : Bool
  projects_root_exists : Bool
  db : DBState
deriving DecidableEq, Repr

/-- `SynchronizationService._validate_paths`. -/
def validate_paths (s : SchedState) : Bool :=
  s.server_path_exists && s.projects_root_exists

/-- `SynchronizationService.synchronize`: on invalid paths, return
`False` without enqueueing; otherwise append one task to the queue and
return `True`.  The catch-all `except` returning `False` means no
exception ever propagates to the caller, so the model is a total
function. -/
def synchronize (s : SchedState) (task_id : String) : SchedState × Bool :=
  if validate_paths s then
    ({ s with queue := s.queue ++ [task_id] }, true)
  else (s, false)

end SynchronizationService

open SynchronizationService (SchedState)

/-- Fields of a catalog row that no reconciliation pass ever writes:
`id`, `uid`, `status` and `created_date` (the pass only creates rows,
updates paths and names, and stamps `modified_date`). -/
def RowCoreEq (r r2 : ProjectRec) : Prop :=
  r2.id = r.id ∧ r2.uid = r.uid ∧ r2.status = r.status
    ∧ r2.created_date = r.created_date

/-! ## Concrete states used by counterexamples and witnesses -/

/-- A canonical UUID string (the one of the spec's example scenario). -/
def uuidA : String := "11111111-1111-1111-1111-111111111111"

/-- A second canonical UUID string, distinct from `uuidA`. -/
def uuidB : String := "22222222-2222-2222-2222-222222222222"

/-- Catalog with a single active record, used for the `mark_deleted` bug. -/
def dbMarkDeleted : DBState :=
  { rows := [{ id := 1, name := "Tower", path := ["Acme", "Tower"], uid := uuidA,
               status := "active", created_date := 0, modified_date := 0 }],
    next_id := 2, clock := 5 }

/-- State with one identity only in the catalog (`uuidA`) and one identity
only on disk (`uuidB`): exercises the disabled one-sided branches. -/
def stOneSided : SyncState :=
  { db := { rows := [{ id := 1, name := "P1", path := ["A"], uid := uuidA,
                       status := "active", created_date := 0, modified_date := 0 }],
            next_id := 2, clock := 1 },
    files := [{ dir := ["R", "B"], content := some uuidB }],
    supply := [] }

/-- Two active records sharing path `A` (the catalog-duplicate `FIXME`
case) while the filesystem holds both identities at fresh paths: the
first pass only fixes the record the snapshot kept, the second pass then
fixes the other one, so the second pass still mutates the catalog. -/
def stNonIdem : SyncState :=
  { db := { rows := [{ id := 1, name := "P1", path := ["A"], uid := uuidA,
                       status := "active", created_date := 0, modified_date := 0 },
                     { id := 2, name := "P2", path := ["A"], uid := uuidB,
                       status := "active", created_date := 0, modified_date := 0 }],
            next_id := 3, clock := 1 },
    files := [{ dir := ["R", "C"], content := some uuidB },
              { dir := ["R", "D"], content := some uuidA }],
    supply := [] }

/-- First of two active records sharing the path `["P"]`. -/
def rowDupA : ProjectRec :=
  { id := 1, name := "P1", path := ["P"], uid := uuidA, status := "active",
    created_date := 0, modified_date := 0 }

/-- Second (later in iteration order) active record at the path `["P"]`. -/
def rowDupB : ProjectRec :=
  { id := 2, name := "P2", path := ["P"], uid := uuidB, status := "active",
    created_date := 0, modified_date := 0 }

/-- State whose catalog holds two active records with the same path. -/
def stDupPath : SyncState :=
  { db := { rows := [rowDupA, rowDupB], next_id := 3, clock := 1 },
    files := [], supply := [] }

/-- The record of the spec's path-correction example scenario. -/
def rowTower : ProjectRec :=
  { id := 1, name := "Tower", path := ["Acme", "Tower"], uid := uuidA,
    status := "active", created_date := 0, modified_date := 0 }

/-- State of the spec's path-correction example: the catalog holds
`rowTower` at `Acme/Tower` while the sentinel carrying its identity now
sits at `Acme/TowerNew`. -/
def stPathFix : SyncState :=
  { db := { rows := [rowTower], next_id := 2, clock := 1 },
    files := [{ dir := ["R", "Acme", "TowerNew"], content := some uuidA }],
    supply := [] }

/-- Number of snapshot entries whose token is not a valid UID — the
entries the adoption loop consumes one fresh token each for. -/
def invalidCount (m : List (List String × String)) : Nat :=
  (m.filter (fun kv => ¬(ProjectFileUtils.is_uid kv.2 = true))).length

/-- State of the untokened-adoption scenario: one sentinel file with
empty content and one fresh token in the supply. -/
def stAdopt : SyncState :=
  { db := { rows := [], next_id := 1, clock := 0 },
    files := [{ dir := ["R", "NewProj"], content := some "" }],
    supply := [uuidB] }

/-- Derived characterization: the filesystem snapshot as it looks after
the adoption loop — each entry whose token is invalid has its value
replaced by the next fresh token from the supply (in iteration order),
until the supply runs out. -/
def assignTokens : List (List String × String) → List String →
    List (List String × String)
  | [], _ => []
  | kv :: t, s =>
    if ProjectFileUtils.is_uid kv.2 then kv :: assignTokens t s
    else
      match s with
      | [] => kv :: assignTokens t []
      | u :: rest => (kv.1, u) :: assignTokens t rest

/-- Derived characterization: the token the adoption loop writes into the
sentinel directory `d` (an absolute path), or `none` when nothing is
written there. -/
def assignedTokenD (root : List String) :
    List (List String × String) → List String → List String → Option String
  | [], _, _ => none
  | kv :: t, s, d =>
    if ProjectFileUtils.is_uid kv.2 then assignedTokenD root t s d
    else
      match s with
      | [] => assignedTokenD root t [] d
      | u :: rest =>
        if root ++ kv.1 = d then some u else assignedTokenD root t rest d

/-- Scheduler state whose configured server path does not exist. -/
def schedBadPaths : SchedState :=
  { queue := [], server_path_exists := false, projects_root_exists := true,
    db := { rows := [], next_id := 1, clock := 0 } }

/-! ## C2 -/

/-- C2: for every catalog record with id `i`, after `markDeleted(i)` the
record's status should equal the enum value `deleted` and the record
should be excluded from the active-projects snapshot.  The code instead
assigns the literal `"delete"`, while the snapshot filter excludes only
the literal `"deleted"`: on a concrete one-record catalog the marked
record keeps status `"delete"` and still appears in the snapshot the
reconciler builds. -/
theorem mark_deleted_status_mismatch :
    (DatabaseService.mark_deleted_project dbMarkDeleted 1).rows.map ProjectRec.status
        = ["delete"]
      ∧ "delete" ≠ "deleted"
      ∧ SynchronizationService.get_projects_from_database
          (DatabaseService.mark_deleted_project dbMarkDeleted 1)
        = [(["Acme", "Tower"], uuidA)] := by
  decide

/-! ## C3: counterexample -/

/-- C3: the claim states that by default a reconciliation pass marks
catalog-only identities deleted and inserts valid filesystem-only
identities.  On `stOneSided` (identity `uuidA` only in the catalog,
identity `uuidB` only on disk) one pass leaves the catalog byte-for-byte
unchanged: the catalog-only record keeps status `"active"` and no record
with the disk-only identity is created, because both one-sided branches
are commented out in `_sync_projects`. -/
theorem run_pass_one_sided_untouched_cx :
    (SynchronizationService.run_pass ["R"] ["R", "T"] stOneSided).db = stOneSided.db
      ∧ (SynchronizationService.run_pass ["R"] ["R", "T"] stOneSided).db.rows.map
          ProjectRec.status = ["active"]
      ∧ ((SynchronizationService.run_pass ["R"] ["R", "T"] stOneSided).db.rows.filter
          (fun r => r.uid = uuidB)) = [] := by
  decide

/-! ## C7: counterexample -/

/-- C7: the claim states that a second reconciliation pass directly after
a first one, with no external change in between, performs no catalog
mutation.  On `stNonIdem` (two active records sharing one path) the first
pass moves record 2 to path `C`; the second pass then still mutates the
catalog, moving record 1 to path `D`, so the second run is not
mutation-free. -/
theorem run_pass_not_idempotent_cx :
    (SynchronizationService.run_pass ["R"] ["R", "T"]
        (SynchronizationService.run_pass ["R"] ["R", "T"] stNonIdem)).db
      ≠ (SynchronizationService.run_pass ["R"] ["R", "T"] stNonIdem).db
      ∧ ((SynchronizationService.run_pass ["R"] ["R", "T"]
            (SynchronizationService.run_pass ["R"] ["R", "T"] stNonIdem)).db.rows.map
          (fun r => (r.id, r.path)))
        = [(1, ["D"]), (2, ["C"])] := by
  decide

/-! ## C8 -/

/-- C8: counterexample to "every call to `requestSync()` enqueues one
unit of work": when `_validate_paths` fails (missing server path),
`synchronize` returns `False` and enqueues nothing. -/
theorem synchronize_invalid_paths_cx :
    SynchronizationService.synchronize schedBadPaths "task-1"
      = (schedBadPaths, false)
      ∧ (SynchronizationService.synchronize schedBadPaths "task-1").1.queue = [] := by
  decide

/-- C8 (amended): a call to `synchronize` enqueues exactly one unit of
work and returns `True` when path validation succeeds, enqueues nothing
and returns `False` when it fails; in both cases it runs no
reconciliation pass itself (the catalog is untouched) and no error is
surfaced beyond the boolean — the function is total, failures of a pass
being observable only through logs and store state. -/
theorem synchronize_enqueue_spec (s : SchedState) (t : String) :
    (SynchronizationService.synchronize s t).1.queue
        = (if SynchronizationService.validate_paths s then s.queue ++ [t] else s.queue)
      ∧ (SynchronizationService.synchronize s t).2
        = SynchronizationService.validate_paths s
      ∧ (SynchronizationService.synchronize s t).1.db = s.db := by
  unfold SynchronizationService.synchronize
  by_cases h : SynchronizationService.validate_paths s <;> simp [h]

/-! ## Dictionary lemmas -/

theorem dictLookup_cons {α β : Type} [DecidableEq α] (p : α × β) (m : List (α × β))
    (k : α) :
    dictLookup (p :: m) k = if p.1 = k then some p.2 else dictLookup m k := by
  by_cases h : p.1 = k <;>
    simp [dictLookup, List.find?_cons_of_pos, List.find?_cons_of_neg, h]

theorem any_key_iff {α β : Type} [DecidableEq α] (m : List (α × β)) (k : α) :
    m.any (fun p => p.1 = k) = true ↔ k ∈ m.map Prod.fst := by
  simp [List.any_eq_true, List.mem_map]

theorem dictLookup_replace {α β : Type} [DecidableEq α] (m : List (α × β)) (k k2 : α)
    (v : β) :
    dictLookup (m.map (fun p => if p.1 = k then (k, v) else p)) k2
      = if k2 = k then (if m.any (fun p => p.1 = k) then some v else none)
        else dictLookup m k2 := by
  induction m with
  | nil => by_cases h : k2 = k <;> simp [dictLookup, h]
  | cons p rest ih =>
    rw [List.map_cons]
    by_cases hp : p.1 = k
    · rw [if_pos hp, dictLookup_cons, dictLookup_cons, ih]
      by_cases hk : k2 = k
      · have h1 : (k, v).1 = k2 := hk.symm
        rw [if_pos h1]
        simp [hk, List.any_cons, hp]
      · have h1 : ¬((k, v).1 = k2) := fun he => hk he.symm
        have h2 : ¬(p.1 = k2) := by rw [hp]; exact fun he => hk he.symm
        rw [if_neg h1]
        simp [hk, h2]
    · rw [if_neg hp, dictLookup_cons, dictLookup_cons, ih]
      by_cases hk : k2 = k
      · simp [hk, hp, List.any_cons]
        rw [decide_eq_false hp]
        rfl
      · simp [hk]

theorem dictLookup_append {α β : Type} [DecidableEq α] (m1 m2 : List (α × β)) (k : α) :
    dictLookup (m1 ++ m2) k = (dictLookup m1 k).or (dictLookup m2 k) := by
  unfold dictLookup
  rw [List.find?_append]
  cases m1.find? (fun p => p.1 = k) <;> simp

theorem dictLookup_insert {α β : Type} [DecidableEq α] (m : List (α × β)) (k k2 : α)
    (v : β) :
    dictLookup (dictInsert m k v) k2 = if k2 = k then some v else dictLookup m k2 := by
  unfold dictInsert
  by_cases h : m.any (fun p => p.1 = k) = true
  · rw [if_pos h, dictLookup_replace]
    by_cases hk : k2 = k <;> simp [hk, h]
  · rw [if_neg h, dictLookup_append]
    by_cases hk : k2 = k
    · have hfalse : ∀ p ∈ m, ¬(decide (p.1 = k2) = true) := by
        intro p hp hdec
        apply h
        refine List.any_eq_true.mpr ⟨p, hp, ?_⟩
        simpa [hk] using hdec
      have hnone : dictLookup m k2 = none := by
        unfold dictLookup
        rw [List.find?_eq_none.mpr hfalse]
        rfl
      rw [hnone, if_pos hk, dictLookup_cons,
        if_pos (show (k, v).1 = k2 from hk.symm)]
      rfl
    · have : ¬(k = k2) := fun he => hk he.symm
      simp [hk, dictLookup_cons, dictLookup, this]

theorem keys_insert {α β : Type} [DecidableEq α] (m : List (α × β)) (k : α) (v : β) :
    (dictInsert m k v).map Prod.fst
      = if m.any (fun p => p.1 = k) then m.map Prod.fst
        else m.map Prod.fst ++ [k] := by
  unfold dictInsert
  by_cases h : m.any (fun p => p.1 = k) = true
  · simp only [h, if_true]
    rw [List.map_map]
    apply List.map_congr_left
    intro p _
    by_cases hp : p.1 = k <;> simp [hp]
  · simp [h]

theorem keys_insert_nodup {α β : Type} [DecidableEq α] (m : List (α × β)) (k : α)
    (v : β) (h : (m.map Prod.fst).Nodup) :
    ((dictInsert m k v).map Prod.fst).Nodup := by
  rw [keys_insert]
  by_cases ha : m.any (fun p => p.1 = k) = true
  · simpa [ha]
  · have hk : k ∉ m.map Prod.fst := fun hmem => ha ((any_key_iff m k).mpr hmem)
    rw [if_neg ha]
    exact h.append (List.nodup_singleton k)
      (List.disjoint_singleton.mpr hk)

theorem dictOf_append_single {α β : Type} [DecidableEq α] (l : List (α × β))
    (x : α × β) :
    dictOf (l ++ [x]) = dictInsert (dictOf l) x.1 x.2 := by
  simp [dictOf, List.foldl_append]

theorem dictOf_lookup {α β : Type} [DecidableEq α] (l : List (α × β)) (k : α) :
    dictLookup (dictOf l) k
      = (l.reverse.find? (fun p => p.1 = k)).map Prod.snd := by
  induction l using List.reverseRecOn with
  | nil => rfl
  | append_singleton l x ih =>
    rw [dictOf_append_single, dictLookup_insert, List.reverse_append]
    by_cases h : k = x.1
    · simp [List.find?_cons_of_pos, h]
    · have : ¬(x.1 = k) := fun he => h he.symm
      simp only [h, if_false]
      rw [List.reverse_singleton]
      simp only [List.singleton_append]
      rw [List.find?_cons_of_neg _ (by simpa using this)]
      exact ih

theorem dictOf_keys_nodup {α β : Type} [DecidableEq α] (l : List (α × β)) :
    ((dictOf l).map Prod.fst).Nodup := by
  induction l using List.reverseRecOn with
  | nil => simp [dictOf]
  | append_singleton l x ih =>
    rw [dictOf_append_single]
    exact keys_insert_nodup _ _ _ ih

/-! ## C1: the scanner -/

theorem scan_eq_dictOf (root tmpl : List String) (files : List FSFile) :
    SynchronizationService.scan_files_for_projects root tmpl files
      = dictOf (SynchronizationService.keptEntries root tmpl files) := by
  unfold SynchronizationService.scan_files_for_projects
    SynchronizationService.keptEntries dictOf
  generalize SynchronizationService.rglob root files = l
  suffices h : ∀ acc : List (List String × String),
      l.foldl (fun result f =>
        if (get_relative_path tmpl (f.dir ++ [projectFileName])).isSome then result
        else
          match ProjectFileUtils.read_project_file f with
          | none => result
          | some c =>
            match get_relative_path root f.dir with
            | some rel => dictInsert result rel c
            | none => result) acc
      = (l.filterMap (SynchronizationService.keptEntry root tmpl)).foldl
          (fun m kv => dictInsert m kv.1 kv.2) acc by
    exact h []
  induction l with
  | nil => intro acc; rfl
  | cons f t ih =>
    intro acc
    rw [List.foldl_cons, List.filterMap_cons]
    by_cases h1 : (get_relative_path tmpl (f.dir ++ [projectFileName])).isSome
    · simp only [SynchronizationService.keptEntry, h1, if_true]
      exact ih acc
    · cases h2 : ProjectFileUtils.read_project_file f with
      | none =>
        simp only [SynchronizationService.keptEntry, h1, if_false, h2]
        exact ih acc
      | some c =>
        cases h3 : get_relative_path root f.dir with
        | none =>
          simp only [SynchronizationService.keptEntry, h1, if_false, h2, h3]
          exact ih acc
        | some rel =>
          simp only [SynchronizationService.keptEntry, h1, if_false, h2, h3,
            List.foldl_cons]
          exact ih (dictInsert acc rel c)

/-- C1: the scan returns a mapping whose keys (relative project paths) are
free of duplicates — one entry per project directory found; looking up a
key yields the content of the last kept sentinel file scanned for that
relative path (a later entry silently overwrites an earlier one, no
failure possible since every operation is total); a sentinel file whose
full path lies under the template-exclusion directory (prefix match)
contributes no entry; kept entries are keyed by the sentinel's parent
directory relative to the root and carry the file's (stripped) content. -/
theorem scan_files_for_projects_spec (root tmpl : List String) (files : List FSFile)
    (k : List String) :
    dictLookup (SynchronizationService.scan_files_for_projects root tmpl files) k
        = ((SynchronizationService.keptEntries root tmpl files).reverse.find?
            (fun kv => kv.1 = k)).map Prod.snd
      ∧ ((SynchronizationService.scan_files_for_projects root tmpl files).map
          Prod.fst).Nodup
      ∧ ∀ f, f ∈ files → tmpl.isPrefixOf (f.dir ++ [projectFileName]) →
          SynchronizationService.keptEntry root tmpl f = none := by
  refine ⟨?_, ?_, ?_⟩
  · rw [scan_eq_dictOf, dictOf_lookup]
  · rw [scan_eq_dictOf]
    exact dictOf_keys_nodup _
  · intro f _ hpre
    simp [SynchronizationService.keptEntry, get_relative_path, hpre]

/-- Files for the C1 witness: a template-subtree sentinel and two kept
sentinel files sharing one relative path (the later wins). -/
def scanWitnessFiles : List FSFile :=
  [{ dir := ["R", "T", "Inner"], content := some uuidA },
   { dir := ["R", "B"], content := some "first" },
   { dir := ["R", "B"], content := some "second" }]

/-- Witness for C1: the spec characterization applied at a concrete
filesystem, where the looked-up key resolves to the later duplicate's
content and the template file contributes nothing. -/
theorem scan_files_for_projects_spec_witness :
    (dictLookup (SynchronizationService.scan_files_for_projects ["R"] ["R", "T"]
          scanWitnessFiles) ["B"]
        = ((SynchronizationService.keptEntries ["R"] ["R", "T"]
            scanWitnessFiles).reverse.find? (fun kv => kv.1 = ["B"])).map Prod.snd)
      ∧ dictLookup (SynchronizationService.scan_files_for_projects ["R"] ["R", "T"]
          scanWitnessFiles) ["B"] = some "second"
      ∧ SynchronizationService.keptEntry ["R"] ["R", "T"]
          { dir := ["R", "T", "Inner"], content := some uuidA } = none :=
  ⟨(scan_files_for_projects_spec ["R"] ["R", "T"] scanWitnessFiles ["B"]).1,
   by decide,
   (scan_files_for_projects_spec ["R"] ["R", "T"] scanWitnessFiles ["B"]).2.2
     { dir := ["R", "T", "Inner"], content := some uuidA } (by decide) (by decide)⟩

/-! ## C6: character-class and parser lemmas -/

theorem hexVal_le {c : Char} {v : Nat} (h : hexVal c = some v) : v ≤ 15 := by
  unfold hexVal at h
  split_ifs at h with h1 h2 h3
  · have := Option.some.inj h
    omega
  · have := Option.some.inj h
    omega
  · have := Option.some.inj h
    omega

theorem hexVal_isSome_ranges {c : Char} (h : (hexVal c).isSome) :
    (48 ≤ c.toNat ∧ c.toNat ≤ 57) ∨ (97 ≤ c.toNat ∧ c.toNat ≤ 102)
      ∨ (65 ≤ c.toNat ∧ c.toNat ≤ 70) := by
  unfold hexVal at h
  split_ifs at h with h1 h2 h3
  · exact Or.inl h1
  · exact Or.inr (Or.inl h2)
  · exact Or.inr (Or.inr h3)
  · simp at h

theorem hex_ne_char {c : Char} (x : Char) (h : (hexVal c).isSome)
    (hx : x.toNat < 48 ∨ (57 < x.toNat ∧ x.toNat < 65)
      ∨ (70 < x.toNat ∧ x.toNat < 97) ∨ 102 < x.toNat) :
    ¬(c = x) := by
  rintro rfl
  rcases hexVal_isSome_ranges h with h1 | h1 | h1 <;> omega

theorem hex_not_white {c : Char} (h : (hexVal c).isSome) : pyWhite c = false := by
  cases hw : pyWhite c
  · rfl
  · exfalso
    have hc : ((((c = ' ' ∨ c = '\t') ∨ c = '\n') ∨ c = '\x0d') ∨ c = '\x0b')
        ∨ c = '\x0c' := by
      simpa [pyWhite] using hw
    rcases hc with ((((rfl | rfl) | rfl) | rfl) | rfl) | rfl <;>
      exact absurd h (by decide)

theorem dropWhile_eq_self_of_all {p : Char → Bool} {l : List Char}
    (h : ∀ c ∈ l, p c = false) : l.dropWhile p = l := by
  cases l with
  | nil => rfl
  | cons c t => rw [List.dropWhile_cons_of_neg (by simp [h c (List.mem_cons_self c t)])]

theorem dropTrail_eq_self_of_all {p : Char → Bool} {l : List Char}
    (h : ∀ c ∈ l, p c = false) : dropTrail p l = l := by
  unfold dropTrail
  rw [dropWhile_eq_self_of_all (fun c hc => h c (List.mem_reverse.mp hc)),
    List.reverse_reverse]

theorem pyStripL_eq_self {l : List Char} (h : ∀ c ∈ l, pyWhite c = false) :
    pyStripL l = l := by
  unfold pyStripL
  rw [dropWhile_eq_self_of_all h, dropTrail_eq_self_of_all h]

theorem mem_of_isPrefixOf {l1 l2 : List Char} (h : l1.isPrefixOf l2 = true) :
    ∀ y ∈ l1, y ∈ l2 := by
  induction l1 generalizing l2 with
  | nil => intro y hy; simp at hy
  | cons a t ih =>
    cases l2 with
    | nil => simp [List.isPrefixOf] at h
    | cons b t2 =>
      simp only [List.isPrefixOf, Bool.and_eq_true, beq_iff_eq] at h
      intro y hy
      rcases List.mem_cons.mp hy with rfl | hy2
      · exact h.1 ▸ List.mem_cons_self _ _
      · exact List.mem_cons_of_mem _ (ih h.2 y hy2)

theorem removeOccFuel_no_occ {pat : List Char} {x : Char} (hx : x ∈ pat) :
    ∀ (fuel : Nat) (s : List Char), x ∉ s → removeOccFuel pat fuel s = s := by
  intro fuel
  induction fuel with
  | zero => intro s _; cases s <;> rfl
  | succ n ih =>
    intro s hs
    cases s with
    | nil => rfl
    | cons c rest =>
      have hnp : ¬(pat ≠ [] ∧ pat.isPrefixOf (c :: rest) = true) := by
        rintro ⟨-, hpre⟩
        exact hs (mem_of_isPrefixOf hpre x hx)
      rw [removeOccFuel, if_neg hnp]
      rw [ih rest (fun hmem => hs (List.mem_cons_of_mem _ hmem))]

theorem removeOcc_no_occ {pat : List Char} {x : Char} (hx : x ∈ pat)
    {s : List Char} (hs : x ∉ s) : removeOcc pat s = s :=
  removeOccFuel_no_occ hx s.length s hs

theorem removeOccFuel_single (d : Char) :
    ∀ (fuel : Nat) (s : List Char), s.length ≤ fuel →
      removeOccFuel [d] fuel s = s.filter (fun c => ¬(c = d)) := by
  intro fuel
  induction fuel with
  | zero =>
    intro s hs
    rw [Nat.le_zero] at hs
    rw [List.eq_nil_of_length_eq_zero hs]
    rfl
  | succ n ih =>
    intro s hs
    cases s with
    | nil => rfl
    | cons c rest =>
      have hrest : rest.length ≤ n := by
        simpa [List.length_cons, Nat.succ_le_succ_iff] using hs
      by_cases hc : c = d
      · have hpre : [d].isPrefixOf (c :: rest) = true := by
          simp [List.isPrefixOf, hc]
        rw [removeOccFuel, if_pos ⟨by simp, hpre⟩]
        simp only [List.length_cons, List.length_nil, List.drop_succ_cons,
          List.drop_zero]
        rw [ih rest hrest, List.filter_cons]
        simp [hc]
      · have hpre : ¬([d].isPrefixOf (c :: rest) = true) := by
          simp [List.isPrefixOf]
          exact fun he => hc he.symm
        rw [removeOccFuel, if_neg (fun hand => hpre hand.2)]
        rw [ih rest hrest, List.filter_cons]
        simp [hc]

theorem removeOcc_single (d : Char) (s : List Char) :
    removeOcc [d] s = s.filter (fun c => ¬(c = d)) :=
  removeOccFuel_single d s.length s (Nat.le_refl _)

theorem takeHex_some :
    ∀ (n : Nat) (l r : List Char), takeHex n l = some r →
      ∃ p, l = p ++ r ∧ p.length = n ∧ ∀ c ∈ p, (hexVal c).isSome := by
  intro n
  induction n with
  | zero =>
    intro l r h
    have hlr : l = r := by simpa [takeHex] using h
    exact ⟨[], by simp [hlr], rfl, by simp⟩
  | succ n ih =>
    intro l r h
    cases l with
    | nil => simp [takeHex] at h
    | cons c t =>
      rw [takeHex] at h
      by_cases hc : (hexVal c).isSome
      · rw [if_pos hc] at h
        obtain ⟨p, hpt, hlen, hhex⟩ := ih t r h
        refine ⟨c :: p, by simp [hpt], by simp [hlen], ?_⟩
        intro d hd
        rcases List.mem_cons.mp hd with rfl | hd2
        · exact hc
        · exact hhex d hd2
      · rw [if_neg hc] at h
        simp at h

theorem canonical_decomp {l : List Char} (h : canonicalUUIDL l = true) :
    ∃ g1 g2 g3 g4 g5 : List Char,
      g1.length = 8 ∧ g2.length = 4 ∧ g3.length = 4 ∧ g4.length = 4
        ∧ g5.length = 12
      ∧ (∀ c ∈ g1, (hexVal c).isSome) ∧ (∀ c ∈ g2, (hexVal c).isSome)
      ∧ (∀ c ∈ g3, (hexVal c).isSome) ∧ (∀ c ∈ g4, (hexVal c).isSome)
      ∧ (∀ c ∈ g5, (hexVal c).isSome)
      ∧ l = g1 ++ '-' :: (g2 ++ '-' :: (g3 ++ '-' :: (g4 ++ '-' :: g5))) := by
  unfold canonicalUUIDL at h
  split at h
  case _ r1 heq1 =>
    split at h
    case _ r2 heq2 =>
      split at h
      case _ r3 heq3 =>
        split at h
        case _ r4 heq4 =>
          have h5 := of_decide_eq_true h
          obtain ⟨g1, he1, hl1, hh1⟩ := takeHex_some 8 l _ heq1
          obtain ⟨g2, he2, hl2, hh2⟩ := takeHex_some 4 r1 _ heq2
          obtain ⟨g3, he3, hl3, hh3⟩ := takeHex_some 4 r2 _ heq3
          obtain ⟨g4, he4, hl4, hh4⟩ := takeHex_some 4 r3 _ heq4
          obtain ⟨g5, he5, hl5, hh5⟩ := takeHex_some 12 r4 _ h5
          refine ⟨g1, g2, g3, g4, g5, hl1, hl2, hl3, hl4, hl5,
            hh1, hh2, hh3, hh4, hh5, ?_⟩
          rw [he1, he2, he3, he4, he5]
          simp
        case _ => simp at h
      case _ => simp at h
    case _ => simp at h
  case _ => simp at h

theorem canonical_chars {l : List Char} (h : canonicalUUIDL l = true) :
    ∀ c ∈ l, (hexVal c).isSome ∨ c = '-' := by
  obtain ⟨g1, g2, g3, g4, g5, _, _, _, _, _, hh1, hh2, hh3, hh4, hh5, hls⟩ :=
    canonical_decomp h
  intro c hc
  rw [hls] at hc
  rcases List.mem_append.mp hc with hc1 | hc1
  · exact Or.inl (hh1 c hc1)
  rcases List.mem_cons.mp hc1 with rfl | hc2
  · exact Or.inr rfl
  rcases List.mem_append.mp hc2 with hc3 | hc3
  · exact Or.inl (hh2 c hc3)
  rcases List.mem_cons.mp hc3 with rfl | hc4
  · exact Or.inr rfl
  rcases List.mem_append.mp hc4 with hc5 | hc5
  · exact Or.inl (hh3 c hc5)
  rcases List.mem_cons.mp hc5 with rfl | hc6
  · exact Or.inr rfl
  rcases List.mem_append.mp hc6 with hc7 | hc7
  · exact Or.inl (hh4 c hc7)
  rcases List.mem_cons.mp hc7 with rfl | hc8
  · exact Or.inr rfl
  · exact Or.inl (hh5 c hc8)

theorem braces_contains_false {c : Char} (hc : ¬(c = '{') ∧ ¬(c = '}')) :
    (['{', '}'].contains c) = false := by
  simp only [List.contains_cons, List.contains_nil, Bool.or_false,
    Bool.or_eq_false_iff, beq_eq_false_iff_ne, ne_eq]
  exact hc

theorem stripBraces_wrap {l : List Char} (hne : l ≠ [])
    (h : ∀ c ∈ l, ¬(c = '{') ∧ ¬(c = '}')) :
    pyStripCharsL ['{', '}'] ('{' :: l ++ ['}']) = l := by
  unfold pyStripCharsL
  rw [List.cons_append, List.dropWhile_cons_of_pos (by decide)]
  cases l with
  | nil => exact absurd rfl hne
  | cons c0 t =>
    have hc0 := braces_contains_false (h c0 (List.mem_cons_self _ _))
    rw [List.cons_append, List.dropWhile_cons_of_neg (by
      show ¬(['{', '}'].contains c0 = true)
      rw [hc0]
      simp)]
    unfold dropTrail
    rw [← List.cons_append, List.reverse_append, List.reverse_singleton,
      List.singleton_append, List.dropWhile_cons_of_pos (by decide)]
    cases hr : (c0 :: t).reverse with
    | nil => simp at hr
    | cons d r2 =>
      have hd : d ∈ c0 :: t := by
        rw [← List.mem_reverse, hr]
        exact List.mem_cons_self _ _
      have hdd := braces_contains_false (h d hd)
      rw [List.dropWhile_cons_of_neg (by
        show ¬(['{', '}'].contains d = true)
        rw [hdd]
        simp), ← hr, List.reverse_reverse]

theorem hexTail_bound :
    ∀ (t : List Char) (acc : Nat), (∀ c ∈ t, (hexVal c).isSome) →
      ∃ n, hexTail acc t = some n ∧ n < (acc + 1) * 16 ^ t.length := by
  intro t
  induction t with
  | nil =>
    intro acc _
    exact ⟨acc, rfl, by simp⟩
  | cons c r ih =>
    intro acc h
    have hc : (hexVal c).isSome := h c (List.mem_cons_self _ _)
    obtain ⟨v, hv⟩ := Option.isSome_iff_exists.mp hc
    have hne : ¬(c = '_') := hex_ne_char '_' hc (by decide)
    rw [hexTail.eq_def]
    dsimp only []
    rw [if_neg hne, hv]
    obtain ⟨n, hn, hb⟩ := ih (acc * 16 + v) (fun d hd => h d (List.mem_cons_of_mem _ hd))
    refine ⟨n, hn, ?_⟩
    have hv15 : v ≤ 15 := hexVal_le hv
    calc n < (acc * 16 + v + 1) * 16 ^ r.length := hb
      _ ≤ ((acc + 1) * 16) * 16 ^ r.length := mul_le_mul_right' (by omega) _
      _ = (acc + 1) * 16 ^ (c :: r).length := by
          rw [List.length_cons, pow_succ]
          ring

theorem hexDigits_bound {l : List Char} (hne : l ≠ [])
    (h : ∀ c ∈ l, (hexVal c).isSome) :
    ∃ n, hexDigits l = some n ∧ n < 16 ^ l.length := by
  cases l with
  | nil => exact absurd rfl hne
  | cons c r =>
    obtain ⟨v, hv⟩ := Option.isSome_iff_exists.mp (h c (List.mem_cons_self _ _))
    rw [hexDigits, hv]
    obtain ⟨n, hn, hb⟩ := hexTail_bound r v (fun d hd => h d (List.mem_cons_of_mem _ hd))
    refine ⟨n, hn, ?_⟩
    have hv15 : v ≤ 15 := hexVal_le hv
    calc n < (v + 1) * 16 ^ r.length := hb
      _ ≤ 16 * 16 ^ r.length := mul_le_mul_right' (by omega) _
      _ = 16 ^ (c :: r).length := by
          rw [List.length_cons, pow_succ]
          ring

theorem pySign_hex {c : Char} (r : List Char) (hc : (hexVal c).isSome) :
    pySign (c :: r) = (false, c :: r) := by
  have hplus : ¬(c = '+') := hex_ne_char '+' hc (by decide)
  have hminus : ¬(c = '-') := hex_ne_char '-' hc (by decide)
  simp [pySign, hplus, hminus]

theorem pyDrop0x_hex {l : List Char} (h : ∀ c ∈ l, (hexVal c).isSome) :
    pyDrop0x l = l := by
  match l with
  | [] => rfl
  | [c] => rfl
  | c0 :: c1 :: r =>
    have hc1 : (hexVal c1).isSome := h c1 (List.mem_cons_of_mem _ (List.mem_cons_self _ _))
    have hx : ¬(c1 = 'x') := hex_ne_char 'x' hc1 (by decide)
    have hX : ¬(c1 = 'X') := hex_ne_char 'X' hc1 (by decide)
    have hcond : ¬(c0 = '0' ∧ (c1 = 'x' ∨ c1 = 'X')) := fun hand => hand.2.elim hx hX
    simp only [pyDrop0x]
    rw [if_neg hcond]

theorem pyIntHex_all_hex {l : List Char} (hne : l ≠ [])
    (h : ∀ c ∈ l, (hexVal c).isSome) :
    ∃ n : Nat, pyIntHex l = some (n : Int) ∧ n < 16 ^ l.length := by
  obtain ⟨n, hdg, hb⟩ := hexDigits_bound hne h
  refine ⟨n, ?_, hb⟩
  have hstrip : pyStripL l = l := pyStripL_eq_self (fun c hc => hex_not_white (h c hc))
  cases l with
  | nil => exact absurd rfl hne
  | cons c r =>
    have hsign : pySign (pyStripL (c :: r)) = (false, c :: r) := by
      rw [hstrip]
      exact pySign_hex r (h c (List.mem_cons_self _ _))
    unfold pyIntHex
    rw [hsign]
    simp only []
    rw [pyDrop0x_hex h, hdg]
    simp

theorem canonical_nonempty {l : List Char} (h : canonicalUUIDL l = true) :
    l ≠ [] := by
  obtain ⟨g1, g2, g3, g4, g5, hl1, _, _, _, _, _, _, _, _, _, hls⟩ :=
    canonical_decomp h
  rw [hls]
  intro he
  rcases List.append_eq_nil.mp he with ⟨-, he2⟩
  exact List.cons_ne_nil _ _ he2

theorem uuidCtorOk_canonical {l : List Char} (h : canonicalUUIDL l = true) :
    uuidCtorOk ('{' :: l ++ ['}']) = true := by
  obtain ⟨g1, g2, g3, g4, g5, hl1, hl2, hl3, hl4, hl5, hh1, hh2, hh3, hh4, hh5, hls⟩ :=
    canonical_decomp h
  have hchar := canonical_chars h
  have hcolon : ':' ∉ '{' :: l ++ ['}'] := by
    intro hmem
    rcases List.mem_cons.mp hmem with heq | hmem2
    · exact absurd heq (by decide)
    rcases List.mem_append.mp hmem2 with hml | hmr
    · rcases hchar ':' hml with hx | hx
      · exact absurd hx (by decide)
      · exact absurd hx (by decide)
    · simp at hmr
  have hnb : ∀ c ∈ l, ¬(c = '{') ∧ ¬(c = '}') := by
    intro c hc
    rcases hchar c hc with hx | rfl
    · exact ⟨hex_ne_char '{' hx (by decide), hex_ne_char '}' hx (by decide)⟩
    · exact ⟨by decide, by decide⟩
  have hfilgr : ∀ g : List Char, (∀ c ∈ g, (hexVal c).isSome) →
      g.filter (fun c => ¬(c = '-')) = g := by
    intro g hg
    apply List.filter_eq_self.mpr
    intro c hc
    simpa using hex_ne_char '-' (hg c hc) (by decide)
  have hfil : l.filter (fun c => ¬(c = '-')) = g1 ++ (g2 ++ (g3 ++ (g4 ++ g5))) := by
    rw [hls]
    simp only [List.filter_append, List.filter_cons]
    rw [hfilgr g1 hh1, hfilgr g2 hh2, hfilgr g3 hh3, hfilgr g4 hh4, hfilgr g5 hh5]
    simp
  have hpart : uuidHexPart ('{' :: l ++ ['}']) = g1 ++ (g2 ++ (g3 ++ (g4 ++ g5))) := by
    unfold uuidHexPart
    rw [removeOcc_no_occ (show ':' ∈ ['u', 'r', 'n', ':'] by decide) hcolon,
      removeOcc_no_occ (show ':' ∈ ['u', 'u', 'i', 'd', ':'] by decide) hcolon,
      stripBraces_wrap (canonical_nonempty h) hnb, removeOcc_single, hfil]
  unfold uuidCtorOk
  rw [hpart]
  have hlen32 : (g1 ++ (g2 ++ (g3 ++ (g4 ++ g5)))).length = 32 := by
    simp [hl1, hl2, hl3, hl4, hl5]
  have hallhex : ∀ c ∈ g1 ++ (g2 ++ (g3 ++ (g4 ++ g5))), (hexVal c).isSome := by
    intro c hc
    rcases List.mem_append.mp hc with h1 | hc
    · exact hh1 c h1
    rcases List.mem_append.mp hc with h1 | hc
    · exact hh2 c h1
    rcases List.mem_append.mp hc with h1 | hc
    · exact hh3 c h1
    rcases List.mem_append.mp hc with h1 | hc
    · exact hh4 c h1
    · exact hh5 c hc
  have hne32 : g1 ++ (g2 ++ (g3 ++ (g4 ++ g5))) ≠ [] := by
    intro he
    rw [he] at hlen32
    simp at hlen32
  obtain ⟨n, hph, hnbound⟩ := pyIntHex_all_hex hne32 hallhex
  rw [if_pos hlen32, hph]
  apply decide_eq_true
  have hn128 : n < 2 ^ 128 := by
    have h16 : (16 : Nat) ^ 32 = 2 ^ 128 := by norm_num
    rw [hlen32] at hnbound
    omega
  constructor
  · exact Int.natCast_nonneg n
  · exact_mod_cast hn128

theorem is_uid_of_canonical {s : String} (h : canonicalUUID s = true) :
    ProjectFileUtils.is_uid s = true := by
  unfold ProjectFileUtils.is_uid
  rw [if_neg (fun he => absurd (he ▸ h) (by decide))]
  exact uuidCtorOk_canonical h

theorem canonical_not_white {s : String} (h : canonicalUUID s = true) :
    ∀ c ∈ s.data, pyWhite c = false := by
  intro c hc
  rcases canonical_chars h c hc with hx | rfl
  · exact hex_not_white hx
  · decide

theorem canonical_strip {s : String} (h : canonicalUUID s = true) :
    pyStripL s.data = s.data :=
  pyStripL_eq_self (canonical_not_white h)

/-! ## C6: claim theorems -/

/-- C6: the claim demands `is_uid(s) = true` exactly when the trimmed `s`
parses as a canonical RFC-4122 UUID.  Both directions fail on the code:
the 32-hex-digit string without hyphens is accepted although its trimmed
form is not canonical (CPython's `uuid.UUID` deletes hyphens before
validating), and a canonical UUID padded with spaces — whose trimmed form
is canonical — is rejected because `is_uid` never trims. -/
theorem is_uid_not_trimmed_canonical_cx :
    ProjectFileUtils.is_uid "11111111111111111111111111111111" = true
      ∧ canonicalUUID
          (String.mk (pyStripL ("11111111111111111111111111111111").data)) = false
      ∧ ProjectFileUtils.is_uid " 11111111-1111-1111-1111-111111111111 " = false
      ∧ canonicalUUID
          (String.mk (pyStripL (" 11111111-1111-1111-1111-111111111111 ").data))
        = true := by
  decide

/-- C6 (amended): `is_uid` rejects the empty string and accepts every
canonical RFC-4122 UUID, but it is strictly more liberal than the
claim's "trimmed input parses as a canonical UUID": it performs no
trimming (so whitespace-padded canonical UUIDs are rejected) and it also
accepts non-canonical spellings tolerated by CPython's UUID constructor,
such as 32 hexadecimal digits without hyphens. -/
theorem is_uid_amended (s : String) :
    (canonicalUUID s = true → ProjectFileUtils.is_uid s = true)
      ∧ ProjectFileUtils.is_uid "" = false
      ∧ ProjectFileUtils.is_uid "11111111111111111111111111111111" = true
      ∧ ProjectFileUtils.is_uid " 11111111-1111-1111-1111-111111111111 " = false :=
  ⟨fun h => is_uid_of_canonical h, by decide, by decide, by decide⟩

/-- Witness for C6 (amended): the canonical-acceptance direction applied
to a concrete canonical UUID. -/
theorem is_uid_amended_witness :
    canonicalUUID "11111111-1111-1111-1111-111111111111" = true
      ∧ ProjectFileUtils.is_uid "11111111-1111-1111-1111-111111111111" = true :=
  ⟨by decide,
   (is_uid_amended "11111111-1111-1111-1111-111111111111").1 (by decide)⟩

/-! ## Shared reconciler lemmas -/

theorem mem_setAdd {α : Type} [DecidableEq α] {s : List α} {x u : α} :
    u ∈ setAdd s x ↔ u ∈ s ∨ u = x := by
  unfold setAdd
  by_cases h : x ∈ s
  · rw [if_pos h]
    constructor
    · exact Or.inl
    · rintro (hu | rfl)
      · exact hu
      · exact h
  · rw [if_neg h]
    simp [List.mem_append]

theorem mem_validUidSet_aux (m : List (List String × String)) :
    ∀ (acc : List String) (u : String),
      u ∈ m.foldl (fun s kv =>
          if ProjectFileUtils.is_uid kv.2 then setAdd s kv.2 else s) acc
        ↔ u ∈ acc
          ∨ ((∃ kv ∈ m, kv.2 = u) ∧ ProjectFileUtils.is_uid u = true) := by
  induction m with
  | nil => intro acc u; simp
  | cons kv t ih =>
    intro acc u
    rw [List.foldl_cons]
    by_cases h : ProjectFileUtils.is_uid kv.2 = true
    · rw [if_pos h, ih]
      constructor
      · rintro (hacc | ⟨⟨kv2, hkv2, hval⟩, hu⟩)
        · rcases mem_setAdd.mp hacc with hu2 | rfl
          · exact Or.inl hu2
          · exact Or.inr ⟨⟨kv, List.mem_cons_self _ _, rfl⟩, h⟩
        · exact Or.inr ⟨⟨kv2, List.mem_cons_of_mem _ hkv2, hval⟩, hu⟩
      · rintro (hu2 | ⟨⟨kv2, hkv2, hval⟩, hu⟩)
        · exact Or.inl (mem_setAdd.mpr (Or.inl hu2))
        · rcases List.mem_cons.mp hkv2 with rfl | hkv3
          · exact Or.inl (mem_setAdd.mpr (Or.inr hval.symm))
          · exact Or.inr ⟨⟨kv2, hkv3, hval⟩, hu⟩
    · rw [if_neg h, ih]
      constructor
      · rintro (hacc | ⟨⟨kv2, hkv2, hval⟩, hu⟩)
        · exact Or.inl hacc
        · exact Or.inr ⟨⟨kv2, List.mem_cons_of_mem _ hkv2, hval⟩, hu⟩
      · rintro (hacc | ⟨⟨kv2, hkv2, hval⟩, hu⟩)
        · exact Or.inl hacc
        · rcases List.mem_cons.mp hkv2 with rfl | hkv3
          · exact absurd (hval.symm ▸ hu) h
          · exact Or.inr ⟨⟨kv2, hkv3, hval⟩, hu⟩

theorem mem_validUidSet {m : List (List String × String)} {u : String} :
    u ∈ SynchronizationService.validUidSet m
      ↔ (∃ kv ∈ m, kv.2 = u) ∧ ProjectFileUtils.is_uid u = true := by
  unfold SynchronizationService.validUidSet
  rw [mem_validUidSet_aux]
  simp

theorem get_project_from_uid_spec {db : DBState} {uid : String} {p : ProjectRec}
    (h : DatabaseService.get_project_from_uid db uid = some p) :
    p ∈ db.rows ∧ p.uid = uid ∧ ∀ r ∈ db.rows, r.uid = uid → r = p := by
  unfold DatabaseService.get_project_from_uid at h
  generalize hfil : db.rows.filter (fun r => r.uid = uid) = xs at h
  cases xs with
  | nil => simp at h
  | cons r rest =>
    cases rest with
    | nil =>
      have hrp : r = p := Option.some.inj h
      have hp : p ∈ db.rows.filter (fun r => r.uid = uid) := by
        rw [hfil, ← hrp]
        exact List.mem_cons_self _ _
      obtain ⟨hmem, hpid⟩ := List.mem_filter.mp hp
      refine ⟨hmem, of_decide_eq_true hpid, ?_⟩
      intro r2 hr2 hu2
      have h2 : r2 ∈ db.rows.filter (fun r => r.uid = uid) :=
        List.mem_filter.mpr ⟨hr2, by simp [hu2]⟩
      rw [hfil] at h2
      exact (by simpa using h2 : r2 = r).trans hrp
    | cons r2 rest2 => simp at h

theorem rowCoreEq_refl (r : ProjectRec) : RowCoreEq r r := ⟨rfl, rfl, rfl, rfl⟩

theorem rowCoreEq_trans {r1 r2 r3 : ProjectRec} (h1 : RowCoreEq r1 r2)
    (h2 : RowCoreEq r2 r3) : RowCoreEq r1 r3 :=
  ⟨h2.1.trans h1.1, h2.2.1.trans h1.2.1, h2.2.2.1.trans h1.2.2.1,
   h2.2.2.2.trans h1.2.2.2⟩

theorem forall₂_core_refl (l : List ProjectRec) : List.Forall₂ RowCoreEq l l :=
  List.forall₂_same.mpr (fun r _ => rowCoreEq_refl r)

theorem forall₂_core_trans {l1 l2 l3 : List ProjectRec}
    (h1 : List.Forall₂ RowCoreEq l1 l2) (h2 : List.Forall₂ RowCoreEq l2 l3) :
    List.Forall₂ RowCoreEq l1 l3 := by
  induction h1 generalizing l3 with
  | nil =>
    cases h2
    exact List.Forall₂.nil
  | cons hr _ ih =>
    cases h2 with
    | cons hr2 ht2 => exact List.Forall₂.cons (rowCoreEq_trans hr hr2) (ih ht2)

theorem update_project_path_core (db : DBState) (pid : Nat) (x : List String) :
    List.Forall₂ RowCoreEq db.rows (DatabaseService.update_project_path db pid x).rows := by
  unfold DatabaseService.update_project_path
  rw [List.forall₂_map_right_iff]
  apply List.forall₂_same.mpr
  intro r _
  by_cases h : r.id = pid <;> simp [RowCoreEq, h]

theorem update_project_name_core (db : DBState) (pid : Nat) (x : String) :
    List.Forall₂ RowCoreEq db.rows (DatabaseService.update_project_name db pid x).rows := by
  unfold DatabaseService.update_project_name
  rw [List.forall₂_map_right_iff]
  apply List.forall₂_same.mpr
  intro r _
  by_cases h : r.id = pid <;> simp [RowCoreEq, h]

theorem sync_common_uids_step_core (t : String)
    (dbm fsm : List (List String × String)) (db : DBState) (u : String) :
    List.Forall₂ RowCoreEq db.rows
      ((SynchronizationService.sync_common_uids_step t dbm fsm db u).rows) := by
  unfold SynchronizationService.sync_common_uids_step
  cases h1 : firstKeyWithValue dbm u with
  | none => exact forall₂_core_refl _
  | some a =>
    cases h2 : firstKeyWithValue fsm u with
    | none => exact forall₂_core_refl _
    | some b =>
      dsimp only
      by_cases hab : a ≠ b
      · rw [if_pos hab]
        cases h3 : DatabaseService.get_project_from_uid db u with
        | none => exact forall₂_core_refl _
        | some p =>
          dsimp only
          by_cases hps : pyStartsWith p.name t = true
          · rw [if_pos hps]
            exact forall₂_core_trans (update_project_path_core db p.id b)
              (update_project_name_core _ p.id (leafName b))
          · rw [if_neg hps]
            exact update_project_path_core db p.id b
      · rw [if_neg hab]
        exact forall₂_core_refl _

theorem sync_common_uids_core (t : String) (commons : List String)
    (dbm fsm : List (List String × String)) (db : DBState) :
    List.Forall₂ RowCoreEq db.rows
      (SynchronizationService.sync_common_uids t commons dbm fsm db).rows := by
  unfold SynchronizationService.sync_common_uids
  induction commons generalizing db with
  | nil => exact forall₂_core_refl _
  | cons u us ih =>
    rw [List.foldl_cons]
    exact forall₂_core_trans (sync_common_uids_step_core t dbm fsm db u) (ih _)

theorem sync_files_without_uid_decomp (root : List String)
    (fsm : List (List String × String)) :
    ∀ st : SyncState, ∃ created : List ProjectRec,
      (SynchronizationService.sync_files_without_uid root fsm st).db.rows
          = st.db.rows ++ created
        ∧ ∀ r ∈ created, r.status = "active" ∧ r.uid ∈ st.supply
            ∧ ∃ kv ∈ fsm, ¬(ProjectFileUtils.is_uid kv.2 = true) ∧ r.path = kv.1
              ∧ r.name = leafName (root ++ kv.1) := by
  induction fsm with
  | nil =>
    intro st
    exact ⟨[], by simp [SynchronizationService.sync_files_without_uid], by simp⟩
  | cons kv t ih =>
    intro st
    unfold SynchronizationService.sync_files_without_uid at ih ⊢
    rw [List.foldl_cons]
    by_cases h : ProjectFileUtils.is_uid kv.2 = true
    · have hstep : SynchronizationService.sync_files_without_uid_step root st kv = st := by
        rw [SynchronizationService.sync_files_without_uid_step, if_pos h]
      rw [hstep]
      obtain ⟨created, hrows, hprops⟩ := ih st
      refine ⟨created, hrows, ?_⟩
      intro r hr
      obtain ⟨hst, hsup, kv2, hkv2, hrest⟩ := hprops r hr
      exact ⟨hst, hsup, kv2, List.mem_cons_of_mem _ hkv2, hrest⟩
    · cases hsupply : st.supply with
      | nil =>
        have hstep : SynchronizationService.sync_files_without_uid_step root st kv = st := by
          rw [SynchronizationService.sync_files_without_uid_step, if_neg h, hsupply]
        rw [hstep]
        obtain ⟨created, hrows, hprops⟩ := ih st
        refine ⟨created, hrows, ?_⟩
        intro r hr
        obtain ⟨hst, hsup, kv2, hkv2, hrest⟩ := hprops r hr
        rw [hsupply] at hsup
        exact ⟨hst, hsup, kv2, List.mem_cons_of_mem _ hkv2, hrest⟩
      | cons u rest =>
        have hstep : SynchronizationService.sync_files_without_uid_step root st kv
            = { db := (DatabaseService.create_project st.db
                  (leafName (root ++ kv.1)) kv.1 u).1,
                files := fsWrite st.files (root ++ kv.1) u, supply := rest } := by
          rw [SynchronizationService.sync_files_without_uid_step, if_neg h, hsupply]
        rw [hstep]
        obtain ⟨created, hrows, hprops⟩ := ih
          { db := (DatabaseService.create_project st.db (leafName (root ++ kv.1)) kv.1 u).1,
            files := fsWrite st.files (root ++ kv.1) u, supply := rest }
        refine ⟨(DatabaseService.create_project st.db
            (leafName (root ++ kv.1)) kv.1 u).2 :: created, ?_, ?_⟩
        · rw [hrows]
          simp [DatabaseService.create_project, List.append_assoc]
        · intro r hr
          rcases List.mem_cons.mp hr with rfl | hr2
          · exact ⟨rfl, List.mem_cons_self _ _, kv, List.mem_cons_self _ _, h, rfl, rfl⟩
          · obtain ⟨hst, hsup, kv2, hkv2, hrest⟩ := hprops r hr2
            exact ⟨hst, List.mem_cons_of_mem _ hsup, kv2,
              List.mem_cons_of_mem _ hkv2, hrest⟩

/-! ## C3: amended theorem -/

/-- C3 (amended): a reconciliation pass performs neither one-sided
branch.  Every pre-existing catalog row survives the pass with `id`,
`uid`, `status` and `created_date` unchanged — in particular no
catalog-only identity is ever marked deleted — and every row the pass
adds comes from a filesystem entry whose token is invalid, is created
with status `"active"`, and carries that entry's path — in particular a
valid disk-only identity creates no record.  The one-sided handlers
exist in the source but their call sites are commented out. -/
theorem run_pass_one_sided_disabled (root tmpl : List String) (st : SyncState) :
    ∃ updated created : List ProjectRec,
      (SynchronizationService.run_pass root tmpl st).db.rows = updated ++ created
        ∧ List.Forall₂ RowCoreEq st.db.rows updated
        ∧ ∀ r ∈ created, r.status = "active"
            ∧ ∃ kv ∈ SynchronizationService.scan_files_for_projects root tmpl st.files,
                ¬(ProjectFileUtils.is_uid kv.2 = true) ∧ r.path = kv.1 := by
  obtain ⟨created, hrows, hprops⟩ :=
    sync_files_without_uid_decomp root
      (SynchronizationService.scan_files_for_projects root tmpl st.files)
      ⟨SynchronizationService.sync_common_uids (leafName tmpl)
          ((SynchronizationService.validUidSet
              (SynchronizationService.get_projects_from_database st.db)).filter
            (fun u => u ∈ SynchronizationService.validUidSet
              (SynchronizationService.scan_files_for_projects root tmpl st.files)))
          (SynchronizationService.get_projects_from_database st.db)
          (SynchronizationService.scan_files_for_projects root tmpl st.files) st.db,
        st.files, st.supply⟩
  refine ⟨_, created, hrows, ?_, ?_⟩
  · exact sync_common_uids_core _ _ _ _ _
  · intro r hr
    obtain ⟨hst, _, kv2, hkv2, hinv, hpath, _⟩ := hprops r hr
    exact ⟨hst, kv2, hkv2, hinv, hpath⟩

/-- Witness for C3 (amended): instantiated at the one-sided concrete
state. -/
theorem run_pass_one_sided_disabled_witness :
    ∃ updated created : List ProjectRec,
      (SynchronizationService.run_pass ["R"] ["R", "T"] stOneSided).db.rows
          = updated ++ created
        ∧ List.Forall₂ RowCoreEq stOneSided.db.rows updated
        ∧ ∀ r ∈ created, r.status = "active"
            ∧ ∃ kv ∈ SynchronizationService.scan_files_for_projects ["R"] ["R", "T"]
                stOneSided.files,
                ¬(ProjectFileUtils.is_uid kv.2 = true) ∧ r.path = kv.1 :=
  run_pass_one_sided_disabled ["R"] ["R", "T"] stOneSided

/-! ## Catalog snapshot characterization and row preservation -/

theorem snapshot_eq_dictOf (db : DBState) :
    SynchronizationService.get_projects_from_database db
      = dictOf ((SynchronizationService.activeRows db).map (fun r => (r.path, r.uid))) := by
  unfold SynchronizationService.get_projects_from_database
    SynchronizationService.activeRows dictOf DatabaseService.get_all_projects
  suffices h : ∀ (l : List ProjectRec) (acc : List (List String × String)),
      l.foldl (fun result r =>
          if r.status ≠ "deleted" then dictInsert result r.path r.uid else result) acc
        = ((l.filter (fun r => r.status ≠ "deleted")).map
            (fun r => (r.path, r.uid))).foldl
            (fun m kv => dictInsert m kv.1 kv.2) acc by
    exact h db.rows []
  intro l
  induction l with
  | nil => intro acc; rfl
  | cons r t ih =>
    intro acc
    rw [List.foldl_cons, List.filter_cons]
    by_cases hs : r.status = "deleted"
    · rw [if_neg (not_not_intro hs)]
      have hd : (decide ¬(r.status = "deleted")) = false := by simp [hs]
      rw [hd]
      exact ih acc
    · rw [if_pos hs]
      have hd : (decide ¬(r.status = "deleted")) = true := by simp [hs]
      rw [hd, if_pos rfl, List.map_cons, List.foldl_cons]
      exact ih (dictInsert acc r.path r.uid)

theorem mem_dictInsert {α β : Type} [DecidableEq α] {m : List (α × β)} {k : α}
    {v : β} {kv : α × β} (h : kv ∈ dictInsert m k v) : kv = (k, v) ∨ kv ∈ m := by
  unfold dictInsert at h
  by_cases ha : m.any (fun p => p.1 = k) = true
  · rw [if_pos ha] at h
    obtain ⟨p, hp, hpe⟩ := List.mem_map.mp h
    by_cases hpk : p.1 = k
    · rw [if_pos hpk] at hpe
      exact Or.inl hpe.symm
    · rw [if_neg hpk] at hpe
      exact Or.inr (hpe ▸ hp)
  · rw [if_neg ha] at h
    rcases List.mem_append.mp h with h2 | h2
    · exact Or.inr h2
    · exact Or.inl (by simpa using h2)

theorem mem_of_mem_dictOf {α β : Type} [DecidableEq α] {l : List (α × β)}
    {kv : α × β} (h : kv ∈ dictOf l) : kv ∈ l := by
  induction l using List.reverseRecOn with
  | nil => simp [dictOf] at h
  | append_singleton t x ih =>
    rw [dictOf_append_single] at h
    rcases mem_dictInsert h with rfl | h2
    · simp
    · exact List.mem_append_left _ (ih h2)

theorem lookup_of_mem_nodup {α β : Type} [DecidableEq α] {m : List (α × β)}
    (hnd : (m.map Prod.fst).Nodup) {kv : α × β} (h : kv ∈ m) :
    dictLookup m kv.1 = some kv.2 := by
  induction m with
  | nil => simp at h
  | cons p t ih =>
    rcases List.mem_cons.mp h with rfl | h2
    · rw [dictLookup_cons, if_pos rfl]
    · have hk : kv.1 ≠ p.1 := by
        intro he
        have : p.1 ∈ t.map Prod.fst := he ▸ List.mem_map_of_mem Prod.fst h2
        exact (List.nodup_cons.mp (by simpa using hnd)).1 this
      rw [dictLookup_cons, if_neg (fun he => hk he.symm)]
      exact ih (List.nodup_cons.mp (by simpa using hnd)).2 h2

theorem forall₂_core_map_id {l1 l2 : List ProjectRec}
    (h : List.Forall₂ RowCoreEq l1 l2) :
    l2.map ProjectRec.id = l1.map ProjectRec.id := by
  induction h with
  | nil => rfl
  | cons hr _ ih => simp [ih, hr.1]

theorem id_inj {l : List ProjectRec} (h : (l.map ProjectRec.id).Nodup)
    {r p : ProjectRec} (hr : r ∈ l) (hp : p ∈ l) (he : r.id = p.id) : r = p :=
  List.inj_on_of_nodup_map h hr hp he

theorem sync_common_uids_step_preserves {t : String}
    {dbm fsm : List (List String × String)} {db : DBState} {u : String}
    {r : ProjectRec} (hids : (db.rows.map ProjectRec.id).Nodup)
    (hr : r ∈ db.rows) (hru : r.uid ≠ u) :
    r ∈ (SynchronizationService.sync_common_uids_step t dbm fsm db u).rows := by
  unfold SynchronizationService.sync_common_uids_step
  cases h1 : firstKeyWithValue dbm u with
  | none => exact hr
  | some a =>
    cases h2 : firstKeyWithValue fsm u with
    | none => exact hr
    | some b =>
      dsimp only
      by_cases hab : a ≠ b
      · rw [if_pos hab]
        cases h3 : DatabaseService.get_project_from_uid db u with
        | none => exact hr
        | some p =>
          dsimp only
          obtain ⟨hpmem, hpu, -⟩ := get_project_from_uid_spec h3
          have hrid : r.id ≠ p.id := by
            intro he
            exact hru ((id_inj hids hr hpmem he) ▸ hpu)
          have hmem1 : r ∈ (DatabaseService.update_project_path db p.id b).rows := by
            unfold DatabaseService.update_project_path
            exact List.mem_map.mpr ⟨r, hr, by rw [if_neg hrid]⟩
          by_cases hps : pyStartsWith p.name t = true
          · rw [if_pos hps]
            unfold DatabaseService.update_project_name
            exact List.mem_map.mpr ⟨r, hmem1, by rw [if_neg hrid]⟩
          · rw [if_neg hps]
            exact hmem1
      · rw [if_neg hab]
        exact hr

theorem sync_common_uids_preserves {t : String} {commons : List String}
    {dbm fsm : List (List String × String)} {db : DBState} {r : ProjectRec}
    (hids : (db.rows.map ProjectRec.id).Nodup) (hr : r ∈ db.rows)
    (hru : ∀ u ∈ commons, r.uid ≠ u) :
    r ∈ (SynchronizationService.sync_common_uids t commons dbm fsm db).rows := by
  unfold SynchronizationService.sync_common_uids
  induction commons generalizing db with
  | nil => exact hr
  | cons u us ih =>
    rw [List.foldl_cons]
    have hstep := @sync_common_uids_step_preserves t dbm fsm db u r
      hids hr (hru u (List.mem_cons_self _ _))
    have hids2 : (((SynchronizationService.sync_common_uids_step t dbm fsm db u).rows).map
        ProjectRec.id).Nodup := by
      rw [forall₂_core_map_id (sync_common_uids_step_core t dbm fsm db u)]
      exact hids
    exact ih hids2 hstep (fun u2 hu2 => hru u2 (List.mem_cons_of_mem _ hu2))

theorem run_pass_preserves_row {root tmpl : List String} {st : SyncState}
    {r : ProjectRec} (hids : (st.db.rows.map ProjectRec.id).Nodup)
    (hr : r ∈ st.db.rows)
    (hru : r.uid ∉ SynchronizationService.validUidSet
      (SynchronizationService.get_projects_from_database st.db)) :
    r ∈ (SynchronizationService.run_pass root tmpl st).db.rows := by
  obtain ⟨created, hrows, -⟩ :=
    sync_files_without_uid_decomp root
      (SynchronizationService.scan_files_for_projects root tmpl st.files)
      ⟨SynchronizationService.sync_common_uids (leafName tmpl)
          ((SynchronizationService.validUidSet
              (SynchronizationService.get_projects_from_database st.db)).filter
            (fun u => u ∈ SynchronizationService.validUidSet
              (SynchronizationService.scan_files_for_projects root tmpl st.files)))
          (SynchronizationService.get_projects_from_database st.db)
          (SynchronizationService.scan_files_for_projects root tmpl st.files) st.db,
        st.files, st.supply⟩
  show r ∈ (SynchronizationService.run_pass root tmpl st).db.rows
  rw [show (SynchronizationService.run_pass root tmpl st).db.rows = _ from hrows]
  apply List.mem_append_left
  apply sync_common_uids_preserves hids hr
  intro u hu
  intro he
  exact hru (he ▸ List.mem_of_mem_filter hu)

/-! ## C10 -/

/-- C10: when two non-deleted catalog records share a path `p` (the later
one being the last non-deleted record with that path, and the earlier
one's identity occurring on no other non-deleted record), the snapshot the
reconciler builds maps `p` to the later record's identity; the earlier
record's identity is absent from the snapshot's values, and consequently
the earlier record is carried through a reconciliation pass completely
untouched — never examined or updated by the diff. -/
theorem snapshot_duplicate_path_shadowing (root tmpl : List String)
    (st : SyncState) (p : List String) (r1 r2 : ProjectRec)
    (pre mid post : List ProjectRec)
    (hrows : st.db.rows = pre ++ r1 :: (mid ++ r2 :: post))
    (h1 : r1.status ≠ "deleted") (h2 : r2.status ≠ "deleted")
    (hp1 : r1.path = p) (hp2 : r2.path = p)
    (hlast : ∀ r ∈ post, r.status ≠ "deleted" → r.path ≠ p)
    (huniq : ∀ r ∈ st.db.rows, r.status ≠ "deleted" → r.uid = r1.uid → r = r1)
    (hneuid : r1.uid ≠ r2.uid)
    (hids : (st.db.rows.map ProjectRec.id).Nodup) :
    dictLookup (SynchronizationService.get_projects_from_database st.db) p
        = some r2.uid
      ∧ r1.uid ∉ (SynchronizationService.get_projects_from_database st.db).map
          Prod.snd
      ∧ r1 ∈ (SynchronizationService.run_pass root tmpl st).db.rows := by
  have hact : SynchronizationService.activeRows st.db
      = pre.filter (fun r => r.status ≠ "deleted")
        ++ r1 :: (mid.filter (fun r => r.status ≠ "deleted")
          ++ r2 :: post.filter (fun r => r.status ≠ "deleted")) := by
    unfold SynchronizationService.activeRows
    rw [hrows]
    simp [List.filter_append, List.filter_cons, h1, h2]
  have hfindPost : ((post.filter (fun r => r.status ≠ "deleted")).map
        (fun r => (r.path, r.uid))).reverse.find? (fun kv => kv.1 = p) = none := by
    apply List.find?_eq_none.mpr
    intro kv hkv
    rw [List.mem_reverse] at hkv
    obtain ⟨r, hr, rfl⟩ := List.mem_map.mp hkv
    obtain ⟨hrmem, hract⟩ := List.mem_filter.mp hr
    simpa using hlast r hrmem (of_decide_eq_true hract)
  have hlookup : dictLookup (SynchronizationService.get_projects_from_database st.db) p
      = some r2.uid := by
    rw [snapshot_eq_dictOf, dictOf_lookup, hact]
    simp only [List.map_append, List.map_cons, List.reverse_append,
      List.reverse_cons, List.append_assoc, List.singleton_append,
      List.find?_append, hfindPost, Option.none_or]
    rw [List.find?_cons_of_pos _ (by simp [hp2])]
    simp
  refine ⟨hlookup, ?_, ?_⟩
  · intro hmem
    obtain ⟨kv, hkvmem, hkv2⟩ := List.mem_map.mp hmem
    have hkvE : kv ∈ (SynchronizationService.activeRows st.db).map
        (fun r => (r.path, r.uid)) := by
      apply mem_of_mem_dictOf
      rw [← snapshot_eq_dictOf]
      exact hkvmem
    obtain ⟨r, hrA, rfl⟩ := List.mem_map.mp hkvE
    obtain ⟨hrmem, hract⟩ := List.mem_filter.mp hrA
    have hre : r = r1 := huniq r hrmem (of_decide_eq_true hract) hkv2
    have hnd : ((SynchronizationService.get_projects_from_database st.db).map
        Prod.fst).Nodup := by
      rw [snapshot_eq_dictOf]
      exact dictOf_keys_nodup _
    have hlook2 := lookup_of_mem_nodup hnd hkvmem
    rw [show (r.path, r.uid).1 = p by rw [hre, hp1]] at hlook2
    rw [hlookup] at hlook2
    have : r2.uid = r.uid := Option.some.inj hlook2
    rw [hre] at this
    exact hneuid this.symm
  · apply run_pass_preserves_row hids
    · rw [hrows]
      exact List.mem_append_right _ (List.mem_cons_self _ _)
    · intro hv
      obtain ⟨⟨kv, hkvmem, hkv2⟩, -⟩ := mem_validUidSet.mp hv
      have : r1.uid ∈ (SynchronizationService.get_projects_from_database st.db).map
          Prod.snd := List.mem_map.mpr ⟨kv, hkvmem, hkv2⟩
      -- reuse the middle conjunct argument
      obtain ⟨kv2, hkvmem2, hkv22⟩ := List.mem_map.mp this
      have hkvE : kv2 ∈ (SynchronizationService.activeRows st.db).map
          (fun r => (r.path, r.uid)) := by
        apply mem_of_mem_dictOf
        rw [← snapshot_eq_dictOf]
        exact hkvmem2
      obtain ⟨r, hrA, rfl⟩ := List.mem_map.mp hkvE
      obtain ⟨hrmem, hract⟩ := List.mem_filter.mp hrA
      have hre : r = r1 := huniq r hrmem (of_decide_eq_true hract) hkv22
      have hnd : ((SynchronizationService.get_projects_from_database st.db).map
          Prod.fst).Nodup := by
        rw [snapshot_eq_dictOf]
        exact dictOf_keys_nodup _
      have hlook2 := lookup_of_mem_nodup hnd hkvmem2
      rw [show (r.path, r.uid).1 = p by rw [hre, hp1]] at hlook2
      rw [hlookup] at hlook2
      have : r2.uid = r.uid := Option.some.inj hlook2
      rw [hre] at this
      exact hneuid this.symm

/-- Witness for C10: the shadowing facts at a concrete two-record
catalog whose rows share the path `["P"]`. -/
theorem snapshot_duplicate_path_shadowing_witness :
    dictLookup (SynchronizationService.get_projects_from_database stDupPath.db) ["P"]
        = some rowDupB.uid
      ∧ rowDupA.uid ∉ (SynchronizationService.get_projects_from_database
          stDupPath.db).map Prod.snd
      ∧ rowDupA ∈ (SynchronizationService.run_pass ["R"] ["R", "T"] stDupPath).db.rows :=
  snapshot_duplicate_path_shadowing ["R"] ["R", "T"] stDupPath ["P"] rowDupA rowDupB
    [] [] [] rfl (by decide) (by decide) (by decide) (by decide)
    (by intro r hr; simp at hr) (by decide) (by decide) (by decide)

/-! ## C4: support lemmas -/

theorem dictOf_eq_self {α β : Type} [DecidableEq α] {l : List (α × β)}
    (h : (l.map Prod.fst).Nodup) : dictOf l = l := by
  induction l using List.reverseRecOn with
  | nil => rfl
  | append_singleton t x ih =>
    rw [List.map_append] at h
    have hnd := List.nodup_append.mp h
    rw [dictOf_append_single, ih hnd.1]
    have hx : t.any (fun p => p.1 = x.1) = false := by
      cases hxx : t.any (fun p => p.1 = x.1)
      · rfl
      · exfalso
        have hmem := (any_key_iff t x.1).mp hxx
        exact hnd.2.2 hmem (by simp)
    unfold dictInsert
    rw [hx]
    simp

theorem firstKey_of_unique {α : Type} {m : List (α × String)} {U : String} {A : α}
    (hmem : (A, U) ∈ m) (hall : ∀ kv ∈ m, kv.2 = U → kv.1 = A) :
    firstKeyWithValue m U = some A := by
  unfold firstKeyWithValue
  cases hf : m.find? (fun kv => kv.2 = U) with
  | none =>
    exact absurd (by simp : (decide ((A, U).2 = U)) = true)
      (List.find?_eq_none.mp hf (A, U) hmem)
  | some kv =>
    have haux := List.find?_some hf
    have hkv2 : kv.2 = U := of_decide_eq_true haux
    simp [hall kv (List.mem_of_find?_eq_some hf) hkv2]

theorem setAdd_nodup {α : Type} [DecidableEq α] {s : List α} (h : s.Nodup) (x : α) :
    (setAdd s x).Nodup := by
  unfold setAdd
  by_cases hx : x ∈ s
  · rw [if_pos hx]
    exact h
  · rw [if_neg hx]
    exact h.append (List.nodup_singleton x) (List.disjoint_singleton.mpr hx)

theorem validUidSet_nodup (m : List (List String × String)) :
    (SynchronizationService.validUidSet m).Nodup := by
  unfold SynchronizationService.validUidSet
  suffices h : ∀ acc : List String, acc.Nodup →
      (m.foldl (fun s kv =>
        if ProjectFileUtils.is_uid kv.2 then setAdd s kv.2 else s) acc).Nodup by
    exact h [] List.nodup_nil
  induction m with
  | nil => intro acc hacc; exact hacc
  | cons kv t ih =>
    intro acc hacc
    rw [List.foldl_cons]
    by_cases hv : ProjectFileUtils.is_uid kv.2 = true
    · rw [if_pos hv]
      exact ih _ (setAdd_nodup hacc kv.2)
    · rw [if_neg hv]
      exact ih _ hacc

theorem filter_uid_singleton {l : List ProjectRec} {U : String} {r : ProjectRec}
    (hnd : l.Nodup) (hr : r ∈ l) (hP : r.uid = U)
    (huniq : ∀ x ∈ l, x.uid = U → x = r) :
    l.filter (fun x => x.uid = U) = [r] := by
  induction l with
  | nil => simp at hr
  | cons a t ih =>
    obtain ⟨hat, htnd⟩ := List.nodup_cons.mp hnd
    rcases List.mem_cons.mp hr with rfl | hrt
    · rw [List.filter_cons, if_pos (by simp [hP])]
      have htf : t.filter (fun x => x.uid = U) = [] := by
        rw [List.filter_eq_nil_iff]
        intro x hx
        simp only [decide_eq_true_eq]
        intro hxu
        exact hat ((huniq x (List.mem_cons_of_mem _ hx) hxu) ▸ hx)
      rw [htf]
    · have ha : ¬(a.uid = U) := by
        intro hau
        exact hat ((huniq a (List.mem_cons_self _ _) hau) ▸ hrt)
      rw [List.filter_cons, if_neg (by simpa using ha)]
      exact ih htnd hrt (fun x hx hxu => huniq x (List.mem_cons_of_mem _ hx) hxu)

theorem forall₂_core_filter_uid {l l2 : List ProjectRec} {U : String}
    (h : List.Forall₂ RowCoreEq l l2) :
    List.Forall₂ RowCoreEq (l.filter (fun x => x.uid = U))
      (l2.filter (fun x => x.uid = U)) := by
  induction h with
  | nil => exact List.Forall₂.nil
  | cons hr ht ih =>
    rename_i a b t1 t2
    rw [List.filter_cons, List.filter_cons]
    by_cases hu : a.uid = U
    · rw [if_pos (by simp [hu]), if_pos (by simp [hr.2.1, hu])]
      exact List.Forall₂.cons hr ih
    · rw [if_neg (by simpa using hu), if_neg (by simp [hr.2.1]; exact hu)]
      exact ih

theorem length_one_mem_eq {α : Type} {l : List α} {x : α} (hlen : l.length = 1)
    (hx : x ∈ l) : l = [x] := by
  cases l with
  | nil => simp at hx
  | cons a t =>
    cases t with
    | nil => simpa using (List.mem_singleton.mp hx).symm
    | cons b t2 => simp at hlen

theorem sync_common_uids_step_clock (t : String)
    (dbm fsm : List (List String × String)) (db : DBState) (u : String) :
    db.clock ≤ (SynchronizationService.sync_common_uids_step t dbm fsm db u).clock := by
  unfold SynchronizationService.sync_common_uids_step
  cases h1 : firstKeyWithValue dbm u with
  | none => exact Nat.le_refl _
  | some a =>
    cases h2 : firstKeyWithValue fsm u with
    | none => exact Nat.le_refl _
    | some b =>
      dsimp only
      by_cases hab : a ≠ b
      · rw [if_pos hab]
        cases h3 : DatabaseService.get_project_from_uid db u with
        | none => exact Nat.le_refl _
        | some p =>
          dsimp only
          by_cases hps : pyStartsWith p.name t = true
          · rw [if_pos hps]
            unfold DatabaseService.update_project_name DatabaseService.update_project_path
            dsimp only
            omega
          · rw [if_neg hps]
            unfold DatabaseService.update_project_path
            dsimp only
            omega
      · rw [if_neg hab]

theorem sync_common_uids_clock (t : String) (commons : List String)
    (dbm fsm : List (List String × String)) (db : DBState) :
    db.clock ≤ (SynchronizationService.sync_common_uids t commons dbm fsm db).clock := by
  unfold SynchronizationService.sync_common_uids
  induction commons generalizing db with
  | nil => exact Nat.le_refl _
  | cons u us ih =>
    rw [List.foldl_cons]
    exact Nat.le_trans (sync_common_uids_step_clock t dbm fsm db u) (ih _)

theorem sync_files_without_uid_all_valid {root : List String}
    {fsm : List (List String × String)} {st : SyncState}
    (h : ∀ kv ∈ fsm, ProjectFileUtils.is_uid kv.2 = true) :
    SynchronizationService.sync_files_without_uid root fsm st = st := by
  unfold SynchronizationService.sync_files_without_uid
  induction fsm generalizing st with
  | nil => rfl
  | cons kv t ih =>
    rw [List.foldl_cons]
    have hstep : SynchronizationService.sync_files_without_uid_step root st kv = st := by
      rw [SynchronizationService.sync_files_without_uid_step,
        if_pos (h kv (List.mem_cons_self _ _))]
    rw [hstep]
    exact ih (fun kv2 hkv2 => h kv2 (List.mem_cons_of_mem _ hkv2))

theorem sync_common_uids_step_updates {t : String}
    {dbm fsm : List (List String × String)} {db : DBState} {U : String}
    {A B : List String} {r : ProjectRec}
    (hfk1 : firstKeyWithValue dbm U = some A)
    (hfk2 : firstKeyWithValue fsm U = some B)
    (hAB : A ≠ B)
    (hget : DatabaseService.get_project_from_uid db U = some r) :
    ∃ r2 ∈ (SynchronizationService.sync_common_uids_step t dbm fsm db U).rows,
      r2.id = r.id ∧ r2.uid = r.uid ∧ r2.path = B ∧ db.clock ≤ r2.modified_date := by
  have hrmem : r ∈ db.rows := (get_project_from_uid_spec hget).1
  unfold SynchronizationService.sync_common_uids_step
  rw [hfk1, hfk2]
  dsimp only
  rw [if_pos hAB, hget]
  dsimp only
  by_cases hps : pyStartsWith r.name t = true
  · rw [if_pos hps]
    refine ⟨{ r with path := B, name := leafName B, modified_date := db.clock + 1 },
      ?_, rfl, rfl, rfl, by dsimp only; omega⟩
    unfold DatabaseService.update_project_name DatabaseService.update_project_path
    dsimp only
    refine List.mem_map.mpr ⟨{ r with path := B, modified_date := db.clock }, ?_, ?_⟩
    · exact List.mem_map.mpr ⟨r, hrmem, by rw [if_pos rfl]⟩
    · rw [if_pos rfl]
  · rw [if_neg hps]
    refine ⟨{ r with path := B, modified_date := db.clock },
      ?_, rfl, rfl, rfl, by dsimp only; omega⟩
    unfold DatabaseService.update_project_path
    exact List.mem_map.mpr ⟨r, hrmem, by rw [if_pos rfl]⟩

/-! ## C4 -/

/-- C4: for a catalog record with valid identity `U` at active path `A`,
unique in the catalog, when the filesystem scan reports `U` exactly at
path `B ≠ A` (and every scanned token is valid, so the adoption branch is
inert), one reconciliation pass leaves a record with the same id and
identity whose path is `B` and whose `modified_at` has strictly advanced,
and the pass creates no record (the id column is unchanged). -/
theorem run_pass_path_correction (root tmpl : List String) (st : SyncState)
    (r : ProjectRec) (U : String) (A B : List String)
    (hr : r ∈ st.db.rows) (hst : r.status ≠ "deleted")
    (huid : r.uid = U) (hpath : r.path = A)
    (hvalid : ProjectFileUtils.is_uid U = true)
    (huniq : ∀ x ∈ st.db.rows, x.uid = U → x = r)
    (hids : (st.db.rows.map ProjectRec.id).Nodup)
    (hpaths : ((SynchronizationService.activeRows st.db).map ProjectRec.path).Nodup)
    (hclock : r.modified_date < st.db.clock)
    (hscan : (SynchronizationService.scan_files_for_projects root tmpl st.files).filter
        (fun kv => kv.2 = U) = [(B, U)])
    (hAB : A ≠ B)
    (hall : ∀ kv ∈ SynchronizationService.scan_files_for_projects root tmpl st.files,
        ProjectFileUtils.is_uid kv.2 = true) :
    (∃ r2 ∈ (SynchronizationService.run_pass root tmpl st).db.rows,
        r2.id = r.id ∧ r2.uid = U ∧ r2.path = B
          ∧ r.modified_date < r2.modified_date)
      ∧ (SynchronizationService.run_pass root tmpl st).db.rows.map ProjectRec.id
          = st.db.rows.map ProjectRec.id := by
  have hkeysE : (((SynchronizationService.activeRows st.db).map
      (fun r => (r.path, r.uid))).map Prod.fst).Nodup := by
    rw [List.map_map]
    exact hpaths
  have hdbm : SynchronizationService.get_projects_from_database st.db
      = (SynchronizationService.activeRows st.db).map (fun r => (r.path, r.uid)) := by
    rw [snapshot_eq_dictOf]
    exact dictOf_eq_self hkeysE
  have hrA : r ∈ SynchronizationService.activeRows st.db := by
    unfold SynchronizationService.activeRows
    exact List.mem_filter.mpr ⟨hr, by simp [hst]⟩
  have hAU : (A, U) ∈ SynchronizationService.get_projects_from_database st.db := by
    rw [hdbm]
    exact List.mem_map.mpr ⟨r, hrA, by rw [hpath, huid]⟩
  have hallA : ∀ kv ∈ SynchronizationService.get_projects_from_database st.db,
      kv.2 = U → kv.1 = A := by
    intro kv hkv hkvU
    rw [hdbm] at hkv
    obtain ⟨x, hx, rfl⟩ := List.mem_map.mp hkv
    have hxr : x = r := huniq x (List.mem_of_mem_filter hx) hkvU
    rw [hxr, hpath]
  have hfk1 : firstKeyWithValue
      (SynchronizationService.get_projects_from_database st.db) U = some A :=
    firstKey_of_unique hAU hallA
  have hBUf : (B, U) ∈ (SynchronizationService.scan_files_for_projects root tmpl
      st.files).filter (fun kv => kv.2 = U) := by
    rw [hscan]
    exact List.mem_singleton.mpr rfl
  have hBU : (B, U) ∈ SynchronizationService.scan_files_for_projects root tmpl st.files :=
    List.mem_of_mem_filter hBUf
  have hallB : ∀ kv ∈ SynchronizationService.scan_files_for_projects root tmpl st.files,
      kv.2 = U → kv.1 = B := by
    intro kv hkv hkvU
    have hmemf : kv ∈ (SynchronizationService.scan_files_for_projects root tmpl
        st.files).filter (fun kv => kv.2 = U) :=
      List.mem_filter.mpr ⟨hkv, by simp [hkvU]⟩
    rw [hscan] at hmemf
    rw [List.mem_singleton.mp hmemf]
  have hfk2 : firstKeyWithValue
      (SynchronizationService.scan_files_for_projects root tmpl st.files) U = some B :=
    firstKey_of_unique hBU hallB
  have hUdb : U ∈ SynchronizationService.validUidSet
      (SynchronizationService.get_projects_from_database st.db) :=
    mem_validUidSet.mpr ⟨⟨(A, U), hAU, rfl⟩, hvalid⟩
  have hUfs : U ∈ SynchronizationService.validUidSet
      (SynchronizationService.scan_files_for_projects root tmpl st.files) :=
    mem_validUidSet.mpr ⟨⟨(B, U), hBU, rfl⟩, hvalid⟩
  have hUcommons : U ∈ (SynchronizationService.validUidSet
      (SynchronizationService.get_projects_from_database st.db)).filter
      (fun u => u ∈ SynchronizationService.validUidSet
        (SynchronizationService.scan_files_for_projects root tmpl st.files)) :=
    List.mem_filter.mpr ⟨hUdb, by simp [hUfs]⟩
  have hcommnd : ((SynchronizationService.validUidSet
      (SynchronizationService.get_projects_from_database st.db)).filter
      (fun u => u ∈ SynchronizationService.validUidSet
        (SynchronizationService.scan_files_for_projects root tmpl st.files))).Nodup :=
    (validUidSet_nodup _).filter _
  obtain ⟨l1, l2, hcomm⟩ := List.append_of_mem hUcommons
  have hnd2 : (l1 ++ U :: l2).Nodup := hcomm ▸ hcommnd
  have hU_l1 : U ∉ l1 := by
    intro hmem
    exact absurd (List.mem_cons_self _ _) ((List.nodup_append.mp hnd2).2.2 hmem)
  have hU_l2 : U ∉ l2 := (List.nodup_cons.mp (List.nodup_append.mp hnd2).2.1).1
  have hrp : (SynchronizationService.run_pass root tmpl st).db
      = SynchronizationService.sync_common_uids (leafName tmpl)
          ((SynchronizationService.validUidSet
              (SynchronizationService.get_projects_from_database st.db)).filter
            (fun u => u ∈ SynchronizationService.validUidSet
              (SynchronizationService.scan_files_for_projects root tmpl st.files)))
          (SynchronizationService.get_projects_from_database st.db)
          (SynchronizationService.scan_files_for_projects root tmpl st.files) st.db := by
    show (SynchronizationService.sync_files_without_uid root
        (SynchronizationService.scan_files_for_projects root tmpl st.files)
        ⟨SynchronizationService.sync_common_uids (leafName tmpl) _ _ _ st.db,
          st.files, st.supply⟩).db = _
    rw [sync_files_without_uid_all_valid hall]
  rw [hcomm] at hrp
  have hsplit : SynchronizationService.sync_common_uids (leafName tmpl) (l1 ++ U :: l2)
      (SynchronizationService.get_projects_from_database st.db)
      (SynchronizationService.scan_files_for_projects root tmpl st.files) st.db
      = SynchronizationService.sync_common_uids (leafName tmpl) l2
          (SynchronizationService.get_projects_from_database st.db)
          (SynchronizationService.scan_files_for_projects root tmpl st.files)
          (SynchronizationService.sync_common_uids_step (leafName tmpl)
            (SynchronizationService.get_projects_from_database st.db)
            (SynchronizationService.scan_files_for_projects root tmpl st.files)
            (SynchronizationService.sync_common_uids (leafName tmpl) l1
              (SynchronizationService.get_projects_from_database st.db)
              (SynchronizationService.scan_files_for_projects root tmpl st.files) st.db)
            U) := by
    unfold SynchronizationService.sync_common_uids
    rw [List.foldl_append, List.foldl_cons]
  rw [hsplit] at hrp
  have hcore1 := sync_common_uids_core (leafName tmpl) l1
    (SynchronizationService.get_projects_from_database st.db)
    (SynchronizationService.scan_files_for_projects root tmpl st.files) st.db
  have hids1 : (((SynchronizationService.sync_common_uids (leafName tmpl) l1
      (SynchronizationService.get_projects_from_database st.db)
      (SynchronizationService.scan_files_for_projects root tmpl st.files)
      st.db).rows).map ProjectRec.id).Nodup := by
    rw [forall₂_core_map_id hcore1]
    exact hids
  have hr1 : r ∈ (SynchronizationService.sync_common_uids (leafName tmpl) l1
      (SynchronizationService.get_projects_from_database st.db)
      (SynchronizationService.scan_files_for_projects root tmpl st.files)
      st.db).rows := by
    apply sync_common_uids_preserves hids hr
    intro u hu he
    have huU : u = U := he.symm.trans huid
    exact hU_l1 (huU ▸ hu)
  have hclock1 : st.db.clock ≤ (SynchronizationService.sync_common_uids (leafName tmpl) l1
      (SynchronizationService.get_projects_from_database st.db)
      (SynchronizationService.scan_files_for_projects root tmpl st.files)
      st.db).clock := sync_common_uids_clock _ _ _ _ _
  have hfilst : st.db.rows.filter (fun x => x.uid = U) = [r] :=
    filter_uid_singleton (List.Nodup.of_map _ hids) hr huid huniq
  have hfil1len : (((SynchronizationService.sync_common_uids (leafName tmpl) l1
      (SynchronizationService.get_projects_from_database st.db)
      (SynchronizationService.scan_files_for_projects root tmpl st.files)
      st.db).rows).filter (fun x => x.uid = U)).length = 1 := by
    have hlen := (forall₂_core_filter_uid (U := U) hcore1).length_eq
    rw [hfilst] at hlen
    simpa using hlen.symm
  have hrfil1 : r ∈ ((SynchronizationService.sync_common_uids (leafName tmpl) l1
      (SynchronizationService.get_projects_from_database st.db)
      (SynchronizationService.scan_files_for_projects root tmpl st.files)
      st.db).rows).filter (fun x => x.uid = U) :=
    List.mem_filter.mpr ⟨hr1, by simp [huid]⟩
  have hget1 : DatabaseService.get_project_from_uid
      (SynchronizationService.sync_common_uids (leafName tmpl) l1
        (SynchronizationService.get_projects_from_database st.db)
        (SynchronizationService.scan_files_for_projects root tmpl st.files) st.db) U
      = some r := by
    unfold DatabaseService.get_project_from_uid
    rw [length_one_mem_eq hfil1len hrfil1]
  obtain ⟨r2, hr2mem, hr2id, hr2uid, hr2path, hr2clk⟩ :=
    sync_common_uids_step_updates (t := leafName tmpl) hfk1 hfk2 hAB hget1
  have hcore2 := sync_common_uids_step_core (leafName tmpl)
    (SynchronizationService.get_projects_from_database st.db)
    (SynchronizationService.scan_files_for_projects root tmpl st.files)
    (SynchronizationService.sync_common_uids (leafName tmpl) l1
      (SynchronizationService.get_projects_from_database st.db)
      (SynchronizationService.scan_files_for_projects root tmpl st.files) st.db) U
  have hids2 : (((SynchronizationService.sync_common_uids_step (leafName tmpl)
      (SynchronizationService.get_projects_from_database st.db)
      (SynchronizationService.scan_files_for_projects root tmpl st.files)
      (SynchronizationService.sync_common_uids (leafName tmpl) l1
        (SynchronizationService.get_projects_from_database st.db)
        (SynchronizationService.scan_files_for_projects root tmpl st.files) st.db)
      U).rows).map ProjectRec.id).Nodup := by
    rw [forall₂_core_map_id hcore2]
    exact hids1
  have hr2fin : r2 ∈ (SynchronizationService.sync_common_uids (leafName tmpl) l2
      (SynchronizationService.get_projects_from_database st.db)
      (SynchronizationService.scan_files_for_projects root tmpl st.files)
      (SynchronizationService.sync_common_uids_step (leafName tmpl)
        (SynchronizationService.get_projects_from_database st.db)
        (SynchronizationService.scan_files_for_projects root tmpl st.files)
        (SynchronizationService.sync_common_uids (leafName tmpl) l1
          (SynchronizationService.get_projects_from_database st.db)
          (SynchronizationService.scan_files_for_projects root tmpl st.files) st.db)
        U)).rows := by
    apply sync_common_uids_preserves hids2 hr2mem
    intro u hu he
    have huU : u = U := he.symm.trans (hr2uid.trans huid)
    exact hU_l2 (huU ▸ hu)
  constructor
  · refine ⟨r2, by rw [hrp]; exact hr2fin, hr2id, hr2uid.trans huid, hr2path, ?_⟩
    calc r.modified_date < st.db.clock := hclock
      _ ≤ _ := hclock1
      _ ≤ r2.modified_date := hr2clk
  · rw [hrp]
    have hcore3 := sync_common_uids_core (leafName tmpl) l2
      (SynchronizationService.get_projects_from_database st.db)
      (SynchronizationService.scan_files_for_projects root tmpl st.files)
      (SynchronizationService.sync_common_uids_step (leafName tmpl)
        (SynchronizationService.get_projects_from_database st.db)
        (SynchronizationService.scan_files_for_projects root tmpl st.files)
        (SynchronizationService.sync_common_uids (leafName tmpl) l1
          (SynchronizationService.get_projects_from_database st.db)
          (SynchronizationService.scan_files_for_projects root tmpl st.files) st.db)
        U)
    rw [forall₂_core_map_id hcore3, forall₂_core_map_id hcore2,
      forall₂_core_map_id hcore1]

/-- Witness for C4: the spec's example scenario — record 1 at
`Acme/Tower`, sentinel with the same identity at `Acme/TowerNew`. -/
theorem run_pass_path_correction_witness :
    (∃ r2 ∈ (SynchronizationService.run_pass ["R"] ["R", "T"] stPathFix).db.rows,
        r2.id = rowTower.id ∧ r2.uid = uuidA ∧ r2.path = ["Acme", "TowerNew"]
          ∧ rowTower.modified_date < r2.modified_date)
      ∧ (SynchronizationService.run_pass ["R"] ["R", "T"]
          stPathFix).db.rows.map ProjectRec.id
        = stPathFix.db.rows.map ProjectRec.id :=
  run_pass_path_correction ["R"] ["R", "T"] stPathFix rowTower uuidA
    ["Acme", "Tower"] ["Acme", "TowerNew"] (by decide) (by decide) (by decide)
    (by decide) (by decide) (by decide) (by decide) (by decide) (by decide)
    (by decide) (by decide) (by decide)

/-! ## C5: support lemmas -/

theorem leafName_append {l1 l2 : List String} (h : l2 ≠ []) :
    leafName (l1 ++ l2) = leafName l2 := by
  unfold leafName
  rw [List.getLast?_append_of_ne_nil _ h]

theorem fsWrite_other {files : List FSFile} {dw d : List String} {c : String}
    (hne : dw ≠ d) (f : FSFile) :
    (f ∈ fsWrite files dw c ∧ f.dir = d) ↔ (f ∈ files ∧ f.dir = d) := by
  unfold fsWrite
  by_cases ha : files.any (fun f => f.dir = dw) = true
  · rw [if_pos ha]
    constructor
    · rintro ⟨hmem, hdir⟩
      obtain ⟨f0, hf0, hfe⟩ := List.mem_map.mp hmem
      by_cases hf0d : f0.dir = dw
      · exfalso
        apply hne
        rw [if_pos hf0d] at hfe
        rw [← hfe] at hdir
        rw [← hf0d]
        exact hdir
      · rw [if_neg hf0d] at hfe
        exact ⟨hfe ▸ hf0, hdir⟩
    · rintro ⟨hmem, hdir⟩
      have hfd : ¬(f.dir = dw) := by rw [hdir]; exact fun he => hne he.symm
      exact ⟨List.mem_map.mpr ⟨f, hmem, by rw [if_neg hfd]⟩, hdir⟩
  · rw [if_neg ha]
    constructor
    · rintro ⟨hmem, hdir⟩
      rcases List.mem_append.mp hmem with h2 | h2
      · exact ⟨h2, hdir⟩
      · have : f = { dir := dw, content := some c } := by simpa using h2
        rw [this] at hdir
        exact absurd hdir.symm (fun he => hne he.symm)
    · rintro ⟨hmem, hdir⟩
      exact ⟨List.mem_append_left _ hmem, hdir⟩

theorem fsWrite_self (files : List FSFile) (d : List String) (c : String) :
    (∀ f ∈ fsWrite files d c, f.dir = d → f.content = some c)
      ∧ (∃ f ∈ fsWrite files d c, f.dir = d) := by
  unfold fsWrite
  by_cases ha : files.any (fun f => f.dir = d) = true
  · rw [if_pos ha]
    constructor
    · intro f hmem hdir
      obtain ⟨f0, hf0, hfe⟩ := List.mem_map.mp hmem
      by_cases hf0d : f0.dir = d
      · rw [if_pos hf0d] at hfe
        rw [← hfe]
      · rw [if_neg hf0d] at hfe
        exact absurd (hfe ▸ hdir) hf0d
    · obtain ⟨f0, hf0, hf0d⟩ := List.any_eq_true.mp ha
      refine ⟨{ f0 with content := some c }, ?_, of_decide_eq_true hf0d⟩
      exact List.mem_map.mpr ⟨f0, hf0, by rw [if_pos (of_decide_eq_true hf0d)]⟩
  · rw [if_neg ha]
    constructor
    · intro f hmem hdir
      rcases List.mem_append.mp hmem with h2 | h2
      · exfalso
        apply ha
        exact List.any_eq_true.mpr ⟨f, h2, by simp [hdir]⟩
      · have : f = { dir := d, content := some c } := by simpa using h2
        rw [this]
    · exact ⟨{ dir := d, content := some c }, List.mem_append_right _ (by simp), rfl⟩

theorem sync_files_fold_files_other {root d : List String} :
    ∀ (m : List (List String × String)) (st : SyncState),
      (∀ kv ∈ m, ¬(root ++ kv.1 = d)) →
      ∀ f : FSFile,
        (f ∈ (SynchronizationService.sync_files_without_uid root m st).files
            ∧ f.dir = d)
          ↔ (f ∈ st.files ∧ f.dir = d) := by
  intro m
  induction m with
  | nil => intro st _ f; exact Iff.rfl
  | cons kv t ih =>
    intro st hne f
    unfold SynchronizationService.sync_files_without_uid at ih ⊢
    rw [List.foldl_cons]
    by_cases hv : ProjectFileUtils.is_uid kv.2 = true
    · rw [show SynchronizationService.sync_files_without_uid_step root st kv = st by
        rw [SynchronizationService.sync_files_without_uid_step, if_pos hv]]
      exact ih st (fun kv2 h2 => hne kv2 (List.mem_cons_of_mem _ h2)) f
    · cases hsup : st.supply with
      | nil =>
        rw [show SynchronizationService.sync_files_without_uid_step root st kv = st by
          rw [SynchronizationService.sync_files_without_uid_step, if_neg hv, hsup]]
        exact ih st (fun kv2 h2 => hne kv2 (List.mem_cons_of_mem _ h2)) f
      | cons u0 rest =>
        rw [show SynchronizationService.sync_files_without_uid_step root st kv
            = ⟨(DatabaseService.create_project st.db (leafName (root ++ kv.1))
                  kv.1 u0).1,
                fsWrite st.files (root ++ kv.1) u0, rest⟩ by
          rw [SynchronizationService.sync_files_without_uid_step, if_neg hv, hsup]]
        rw [ih _ (fun kv2 h2 => hne kv2 (List.mem_cons_of_mem _ h2)) f]
        exact fsWrite_other (hne kv (List.mem_cons_self _ _)) f

theorem sync_files_without_uid_adopts (root : List String) :
    ∀ (m : List (List String × String)) (st : SyncState) (P : List String)
      (c0 : String),
      (m.map Prod.fst).Nodup → (P, c0) ∈ m →
      ¬(ProjectFileUtils.is_uid c0 = true) →
      invalidCount m ≤ st.supply.length →
      (∀ u ∈ st.supply, canonicalUUID u = true) → st.supply.Nodup →
      (∀ u ∈ st.supply, ∀ x ∈ st.db.rows, ¬(x.uid = u)) →
      ∃ u ∈ st.supply, ProjectFileUtils.is_uid u = true
        ∧ (∀ f ∈ (SynchronizationService.sync_files_without_uid root m st).files,
            f.dir = root ++ P → f.content = some u)
        ∧ (∃ f ∈ (SynchronizationService.sync_files_without_uid root m st).files,
            f.dir = root ++ P)
        ∧ ∃ rc, ((SynchronizationService.sync_files_without_uid root m st).db.rows.filter
              (fun x => x.uid = u)) = [rc]
            ∧ rc.path = P ∧ rc.name = leafName (root ++ P) ∧ rc.status = "active" := by
  intro m
  induction m with
  | nil =>
    intro st P c0 _ hmem
    simp at hmem
  | cons kv t ih =>
    intro st P c0 hkeys hmem hinvc0 hcount hcanon hnodup hfresh
    have hkeys2 : (t.map Prod.fst).Nodup := (List.nodup_cons.mp hkeys).2
    by_cases hv : ProjectFileUtils.is_uid kv.2 = true
    · -- a valid entry: the step is a no-op, and it cannot be ours
      have hne : kv ≠ (P, c0) := by
        rintro rfl
        exact hinvc0 hv
      have ht : (P, c0) ∈ t := by
        rcases List.mem_cons.mp hmem with heq | h2
        · exact absurd heq.symm hne
        · exact h2
      have hcnt2 : invalidCount t ≤ st.supply.length := by
        have : invalidCount (kv :: t) = invalidCount t := by
          simp [invalidCount, List.filter_cons, hv]
        rw [this] at hcount
        exact hcount
      have hfold : SynchronizationService.sync_files_without_uid root (kv :: t) st
          = SynchronizationService.sync_files_without_uid root t st := by
        unfold SynchronizationService.sync_files_without_uid
        rw [List.foldl_cons, show SynchronizationService.sync_files_without_uid_step
            root st kv = st by
          rw [SynchronizationService.sync_files_without_uid_step, if_pos hv]]
      rw [hfold]
      exact ih st P c0 hkeys2 ht hinvc0 hcnt2 hcanon hnodup hfresh
    · -- an invalid entry consumes one token
      have hcnt : invalidCount (kv :: t) = invalidCount t + 1 := by
        simp [invalidCount, List.filter_cons, hv]
      cases hsup : st.supply with
      | nil =>
        exfalso
        rw [hcnt, hsup] at hcount
        simp at hcount
      | cons u0 rest =>
        have hstep : SynchronizationService.sync_files_without_uid_step root st kv
            = ⟨(DatabaseService.create_project st.db (leafName (root ++ kv.1))
                  kv.1 u0).1,
                fsWrite st.files (root ++ kv.1) u0, rest⟩ := by
          rw [SynchronizationService.sync_files_without_uid_step, if_neg hv, hsup]
        have hfold : SynchronizationService.sync_files_without_uid root (kv :: t) st
            = SynchronizationService.sync_files_without_uid root t
                ⟨(DatabaseService.create_project st.db (leafName (root ++ kv.1))
                    kv.1 u0).1,
                  fsWrite st.files (root ++ kv.1) u0, rest⟩ := by
          unfold SynchronizationService.sync_files_without_uid
          rw [List.foldl_cons, hstep]
        rw [hfold]
        rcases List.mem_cons.mp hmem with heq | ht
        · -- the head is our entry
          obtain rfl : kv = (P, c0) := heq.symm
          refine ⟨u0, List.mem_cons_self _ _,
            is_uid_of_canonical (hcanon u0 (by rw [hsup]; exact List.mem_cons_self _ _)),
            ?_, ?_, ?_⟩
          · intro f hmem2 hdir
            have hothers : ∀ kv2 ∈ t, ¬(root ++ kv2.1 = root ++ P) := by
              intro kv2 h2 happ
              have hk2P : kv2.1 = P := by
                have := congrArg (fun l => List.drop root.length l) happ
                simpa using this
              have hPmem : P ∈ t.map Prod.fst := by
                rw [← hk2P]
                exact List.mem_map_of_mem Prod.fst h2
              exact (List.nodup_cons.mp hkeys).1 hPmem
            have := (sync_files_fold_files_other t _ hothers f).mp ⟨hmem2, hdir⟩
            exact (fsWrite_self st.files (root ++ P) u0).1 f this.1 this.2
          · have hothers : ∀ kv2 ∈ t, ¬(root ++ kv2.1 = root ++ P) := by
              intro kv2 h2 happ
              have hk2P : kv2.1 = P := by
                have := congrArg (fun l => List.drop root.length l) happ
                simpa using this
              have hPmem : P ∈ t.map Prod.fst := by
                rw [← hk2P]
                exact List.mem_map_of_mem Prod.fst h2
              exact (List.nodup_cons.mp hkeys).1 hPmem
            obtain ⟨f, hf, hfd⟩ := (fsWrite_self st.files (root ++ P) u0).2
            exact ⟨f, ((sync_files_fold_files_other t _ hothers f).mpr ⟨hf, hfd⟩).1, hfd⟩
          · obtain ⟨created, hrows, hprops⟩ := sync_files_without_uid_decomp root t
              ⟨(DatabaseService.create_project st.db (leafName (root ++ P)) P u0).1,
                fsWrite st.files (root ++ P) u0, rest⟩
            refine ⟨(DatabaseService.create_project st.db (leafName (root ++ P)) P u0).2,
              ?_, rfl, rfl, rfl⟩
            rw [hrows]
            have hrows2 : ((DatabaseService.create_project st.db
                (leafName (root ++ P)) P u0).1).rows
                = st.db.rows
                  ++ [(DatabaseService.create_project st.db (leafName (root ++ P)) P u0).2] := rfl
            rw [hrows2, List.filter_append, List.filter_append]
            have hf1 : st.db.rows.filter (fun x => x.uid = u0) = [] := by
              rw [List.filter_eq_nil_iff]
              intro x hx
              simpa using hfresh u0 (by rw [hsup]; exact List.mem_cons_self _ _) x hx
            have hf2 : [(DatabaseService.create_project st.db
                (leafName (root ++ P)) P u0).2].filter (fun x => x.uid = u0)
                = [(DatabaseService.create_project st.db (leafName (root ++ P)) P u0).2] := by
              rw [List.filter_cons, if_pos (by simp [DatabaseService.create_project])]
              rfl
            have hf3 : created.filter (fun x => x.uid = u0) = [] := by
              rw [List.filter_eq_nil_iff]
              intro x hx
              obtain ⟨-, hxs, -⟩ := hprops x hx
              have hu0r : u0 ∉ rest := (List.nodup_cons.mp (hsup ▸ hnodup)).1
              simp only [decide_eq_true_eq]
              intro hxe
              exact hu0r (hxe ▸ hxs)
            rw [hf1, hf2, hf3]
            rfl
        · -- our entry is further down; recurse with the consumed supply
          have hP_t : P ∈ t.map Prod.fst := List.mem_map_of_mem Prod.fst ht
          obtain ⟨u, hu, hiu, hfiles, hexists, hrc⟩ := ih
            ⟨(DatabaseService.create_project st.db (leafName (root ++ kv.1))
                kv.1 u0).1,
              fsWrite st.files (root ++ kv.1) u0, rest⟩ P c0 hkeys2 ht hinvc0
            (by
              rw [hcnt, hsup] at hcount
              simpa using Nat.le_of_succ_le_succ hcount)
            (fun u2 h2 => hcanon u2 (by rw [hsup]; exact List.mem_cons_of_mem _ h2))
            ((List.nodup_cons.mp (hsup ▸ hnodup)).2)
            (by
              intro u2 h2 x hx
              have hrows2 : ((DatabaseService.create_project st.db
                  (leafName (root ++ kv.1)) kv.1 u0).1).rows
                  = st.db.rows
                    ++ [(DatabaseService.create_project st.db
                      (leafName (root ++ kv.1)) kv.1 u0).2] := rfl
              rw [hrows2] at hx
              rcases List.mem_append.mp hx with hx2 | hx2
              · exact hfresh u2 (by rw [hsup]; exact List.mem_cons_of_mem _ h2) x hx2
              · have hxe : x = (DatabaseService.create_project st.db
                    (leafName (root ++ kv.1)) kv.1 u0).2 := by simpa using hx2
                rw [hxe]
                have hu0r : u0 ∉ rest := (List.nodup_cons.mp (hsup ▸ hnodup)).1
                simp only [DatabaseService.create_project]
                intro he
                exact hu0r (he ▸ h2))
          exact ⟨u, List.mem_cons_of_mem _ hu, hiu, hfiles, hexists, hrc⟩

theorem forall₂_core_mem_right {l l2 : List ProjectRec}
    (h : List.Forall₂ RowCoreEq l l2) : ∀ x ∈ l2, ∃ y ∈ l, x.uid = y.uid := by
  induction h with
  | nil => simp
  | cons hR _ ih =>
    intro x hx
    rcases List.mem_cons.mp hx with rfl | hx2
    · exact ⟨_, List.mem_cons_self _ _, hR.2.1⟩
    · obtain ⟨y, hy, he⟩ := ih x hx2
      exact ⟨y, List.mem_cons_of_mem _ hy, he⟩

/-- C5: for every sentinel file the scan reports with empty content at
relative path `P`, provided the token supply holds enough fresh canonical
tokens (one per invalid-token entry, pairwise distinct, none already in
the catalog), after one reconciliation pass some valid UUID token `u`
exists such that every file at the sentinel's directory holds exactly `u`
(and such a file exists), and the catalog holds exactly one record with
identity `u` — it has path `P`, name the leaf of `P`, and status
`active`. -/
theorem run_pass_untokened_adoption (root tmpl : List String) (st : SyncState)
    (P : List String) (hP : P ≠ [])
    (hmem : (P, "") ∈ SynchronizationService.scan_files_for_projects root tmpl st.files)
    (hcount : invalidCount
        (SynchronizationService.scan_files_for_projects root tmpl st.files)
      ≤ st.supply.length)
    (hcanon : ∀ u ∈ st.supply, canonicalUUID u = true)
    (hnodup : st.supply.Nodup)
    (hfresh : ∀ u ∈ st.supply, ∀ x ∈ st.db.rows, ¬(x.uid = u)) :
    ∃ u, ProjectFileUtils.is_uid u = true
      ∧ (∀ f ∈ (SynchronizationService.run_pass root tmpl st).files,
          f.dir = root ++ P → f.content = some u)
      ∧ (∃ f ∈ (SynchronizationService.run_pass root tmpl st).files,
          f.dir = root ++ P)
      ∧ ∃ rc, ((SynchronizationService.run_pass root tmpl st).db.rows.filter
            (fun x => x.uid = u)) = [rc]
          ∧ rc.path = P ∧ rc.name = leafName P ∧ rc.status = "active" := by
  have hkeys : ((SynchronizationService.scan_files_for_projects root tmpl
      st.files).map Prod.fst).Nodup := by
    rw [scan_eq_dictOf]
    exact dictOf_keys_nodup _
  have hrp : SynchronizationService.run_pass root tmpl st
      = SynchronizationService.sync_files_without_uid root
          (SynchronizationService.scan_files_for_projects root tmpl st.files)
          ⟨SynchronizationService.sync_common_uids (leafName tmpl)
              ((SynchronizationService.validUidSet
                  (SynchronizationService.get_projects_from_database st.db)).filter
                (fun u => u ∈ SynchronizationService.validUidSet
                  (SynchronizationService.scan_files_for_projects root tmpl st.files)))
              (SynchronizationService.get_projects_from_database st.db)
              (SynchronizationService.scan_files_for_projects root tmpl st.files)
              st.db,
            st.files, st.supply⟩ := rfl
  have hfr2 : ∀ u ∈ st.supply,
      ∀ x ∈ (SynchronizationService.sync_common_uids (leafName tmpl)
          ((SynchronizationService.validUidSet
              (SynchronizationService.get_projects_from_database st.db)).filter
            (fun u => u ∈ SynchronizationService.validUidSet
              (SynchronizationService.scan_files_for_projects root tmpl st.files)))
          (SynchronizationService.get_projects_from_database st.db)
          (SynchronizationService.scan_files_for_projects root tmpl st.files)
          st.db).rows, ¬(x.uid = u) := by
    intro u hu x hx
    obtain ⟨y, hy, he⟩ := forall₂_core_mem_right
      (sync_common_uids_core _ _ _ _ st.db) x hx
    rw [he]
    exact hfresh u hu y hy
  obtain ⟨u, _, hiu, hfiles, hex, rc, hrc, hpath, hname, hstatus⟩ :=
    sync_files_without_uid_adopts root
      (SynchronizationService.scan_files_for_projects root tmpl st.files)
      ⟨SynchronizationService.sync_common_uids (leafName tmpl)
          ((SynchronizationService.validUidSet
              (SynchronizationService.get_projects_from_database st.db)).filter
            (fun u => u ∈ SynchronizationService.validUidSet
              (SynchronizationService.scan_files_for_projects root tmpl st.files)))
          (SynchronizationService.get_projects_from_database st.db)
          (SynchronizationService.scan_files_for_projects root tmpl st.files)
          st.db,
        st.files, st.supply⟩
      P "" hkeys hmem (by decide) hcount hcanon hnodup hfr2
  rw [hrp]
  exact ⟨u, hiu, hfiles, hex, rc, hrc, hpath,
    hname.trans (leafName_append hP), hstatus⟩

/-- C5 witness: the concrete untokened-adoption scenario — one sentinel
file with empty content at `R/NewProj` and a one-token supply. -/
theorem run_pass_untokened_adoption_witness :
    ∃ u, ProjectFileUtils.is_uid u = true
      ∧ (∀ f ∈ (SynchronizationService.run_pass ["R"] ["T"] stAdopt).files,
          f.dir = ["R"] ++ ["NewProj"] → f.content = some u)
      ∧ (∃ f ∈ (SynchronizationService.run_pass ["R"] ["T"] stAdopt).files,
          f.dir = ["R"] ++ ["NewProj"])
      ∧ ∃ rc, ((SynchronizationService.run_pass ["R"] ["T"] stAdopt).db.rows.filter
            (fun x => x.uid = u)) = [rc]
          ∧ rc.path = ["NewProj"] ∧ rc.name = leafName ["NewProj"]
          ∧ rc.status = "active" :=
  run_pass_untokened_adoption ["R"] ["T"] stAdopt ["NewProj"] (by decide)
    (by decide) (by decide) (by decide) (by decide) (by decide)

/-! ## C7: support lemmas -/

theorem assignedTokenD_cons (root : List String) (kv : List String × String)
    (t : List (List String × String)) (s : List String) (d : List String) :
    assignedTokenD root (kv :: t) s d
      = if ProjectFileUtils.is_uid kv.2 then assignedTokenD root t s d
        else
          match s with
          | [] => assignedTokenD root t [] d
          | u :: rest =>
            if root ++ kv.1 = d then some u else assignedTokenD root t rest d := rfl

theorem assignedTokenD_empty_supply (root : List String) :
    ∀ (m : List (List String × String)) (d : List String),
      assignedTokenD root m [] d = none := by
  intro m
  induction m with
  | nil => intro d; rfl
  | cons kv t ih =>
    intro d
    rw [assignedTokenD_cons]
    by_cases hv : ProjectFileUtils.is_uid kv.2 = true
    · rw [if_pos hv]
      exact ih d
    · rw [if_neg hv]
      exact ih d

theorem assignedTokenD_some {root : List String} :
    ∀ {m : List (List String × String)} {s : List String} {d : List String}
      {u : String}, assignedTokenD root m s d = some u →
      u ∈ s ∧ ∃ kv ∈ m, ¬(ProjectFileUtils.is_uid kv.2 = true) ∧ d = root ++ kv.1 := by
  intro m
  induction m with
  | nil =>
    intro s d u h
    simp [assignedTokenD] at h
  | cons kv t ih =>
    intro s d u h
    rw [assignedTokenD_cons] at h
    by_cases hv : ProjectFileUtils.is_uid kv.2 = true
    · rw [if_pos hv] at h
      obtain ⟨hu, kv2, hkv2, hrest⟩ := ih h
      exact ⟨hu, kv2, List.mem_cons_of_mem _ hkv2, hrest⟩
    · rw [if_neg hv] at h
      cases s with
      | nil =>
        rw [assignedTokenD_empty_supply] at h
        exact absurd h (by simp)
      | cons u0 rest =>
        dsimp only [] at h
        by_cases hd : root ++ kv.1 = d
        · rw [if_pos hd] at h
          have hu : u = u0 := by simpa using h.symm
          exact ⟨hu ▸ List.mem_cons_self _ _, kv, List.mem_cons_self _ _, hv, hd.symm⟩
        · rw [if_neg hd] at h
          obtain ⟨hu, kv2, hkv2, hrest⟩ := ih h
          exact ⟨List.mem_cons_of_mem _ hu, kv2, List.mem_cons_of_mem _ hkv2, hrest⟩

theorem assignedTokenD_none {root : List String} :
    ∀ {m : List (List String × String)} (s : List String) {d : List String},
      (∀ kv ∈ m, ¬(ProjectFileUtils.is_uid kv.2 = true) → ¬(root ++ kv.1 = d)) →
      assignedTokenD root m s d = none := by
  intro m
  induction m with
  | nil => intro s d _; rfl
  | cons kv t ih =>
    intro s d h
    rw [assignedTokenD_cons]
    by_cases hv : ProjectFileUtils.is_uid kv.2 = true
    · rw [if_pos hv]
      exact ih s (fun kv2 h2 => h kv2 (List.mem_cons_of_mem _ h2))
    · rw [if_neg hv]
      cases s with
      | nil => exact ih [] (fun kv2 h2 => h kv2 (List.mem_cons_of_mem _ h2))
      | cons u0 rest =>
        dsimp only []
        rw [if_neg (h kv (List.mem_cons_self _ _) hv)]
        exact ih rest (fun kv2 h2 => h kv2 (List.mem_cons_of_mem _ h2))

theorem assignTokens_cons (kv : List String × String)
    (t : List (List String × String)) (s : List String) :
    assignTokens (kv :: t) s
      = if ProjectFileUtils.is_uid kv.2 then kv :: assignTokens t s
        else
          match s with
          | [] => kv :: assignTokens t []
          | u :: rest => (kv.1, u) :: assignTokens t rest := rfl

theorem assignTokens_keys :
    ∀ (m : List (List String × String)) (s : List String),
      (assignTokens m s).map Prod.fst = m.map Prod.fst := by
  intro m
  induction m with
  | nil => intro s; rfl
  | cons kv t ih =>
    intro s
    rw [assignTokens_cons]
    by_cases hv : ProjectFileUtils.is_uid kv.2 = true
    · rw [if_pos hv, List.map_cons, List.map_cons, ih]
    · rw [if_neg hv]
      cases s with
      | nil => rw [List.map_cons, List.map_cons, ih]
      | cons u0 rest => rw [List.map_cons, List.map_cons, ih]

theorem assignTokens_all_valid :
    ∀ (m : List (List String × String)) (s : List String),
      (∀ u ∈ s, canonicalUUID u = true) → invalidCount m ≤ s.length →
      ∀ kv ∈ assignTokens m s, ProjectFileUtils.is_uid kv.2 = true := by
  intro m
  induction m with
  | nil =>
    intro s _ _ kv hkv
    simp [assignTokens] at hkv
  | cons kv t ih =>
    intro s hcanon hcount kv2 hkv2
    rw [assignTokens_cons] at hkv2
    by_cases hv : ProjectFileUtils.is_uid kv.2 = true
    · rw [if_pos hv] at hkv2
      rcases List.mem_cons.mp hkv2 with rfl | h2
      · exact hv
      · have hcnt : invalidCount t ≤ s.length := by
          have : invalidCount (kv :: t) = invalidCount t := by
            simp [invalidCount, List.filter_cons, hv]
          rw [this] at hcount
          exact hcount
        exact ih s hcanon hcnt kv2 h2
    · rw [if_neg hv] at hkv2
      have hcnt : invalidCount (kv :: t) = invalidCount t + 1 := by
        simp [invalidCount, List.filter_cons, hv]
      cases s with
      | nil =>
        exfalso
        rw [hcnt] at hcount
        simp at hcount
      | cons u0 rest =>
        rcases List.mem_cons.mp hkv2 with rfl | h2
        · exact is_uid_of_canonical (hcanon u0 (List.mem_cons_self _ _))
        · exact ih rest (fun u h => hcanon u (List.mem_cons_of_mem _ h))
            (by
              rw [hcnt] at hcount
              simpa using Nat.le_of_succ_le_succ hcount) kv2 h2

theorem assignTokens_mem :
    ∀ {m : List (List String × String)} {s : List String}
      {kv : List String × String},
      kv ∈ assignTokens m s → kv ∈ m ∨ kv.2 ∈ s := by
  intro m
  induction m with
  | nil =>
    intro s kv h
    simp [assignTokens] at h
  | cons kv0 t ih =>
    intro s kv h
    rw [assignTokens_cons] at h
    by_cases hv : ProjectFileUtils.is_uid kv0.2 = true
    · rw [if_pos hv] at h
      rcases List.mem_cons.mp h with rfl | h2
      · exact Or.inl (List.mem_cons_self _ _)
      · rcases ih h2 with h3 | h3
        · exact Or.inl (List.mem_cons_of_mem _ h3)
        · exact Or.inr h3
    · rw [if_neg hv] at h
      cases s with
      | nil =>
        rcases List.mem_cons.mp h with rfl | h2
        · exact Or.inl (List.mem_cons_self _ _)
        · rcases ih h2 with h3 | h3
          · exact Or.inl (List.mem_cons_of_mem _ h3)
          · simp at h3
      | cons u0 rest =>
        rcases List.mem_cons.mp h with rfl | h2
        · exact Or.inr (List.mem_cons_self _ _)
        · rcases ih h2 with h3 | h3
          · exact Or.inl (List.mem_cons_of_mem _ h3)
          · exact Or.inr (List.mem_cons_of_mem _ h3)

theorem firstKey_cons_of_eq {α : Type} {kv : α × String} {m : List (α × String)}
    {v : String} (h : kv.2 = v) : firstKeyWithValue (kv :: m) v = some kv.1 := by
  unfold firstKeyWithValue
  rw [List.find?_cons_of_pos _ (by simp [h])]
  rfl

theorem firstKey_cons_of_ne {α : Type} {kv : α × String} {m : List (α × String)}
    {v : String} (h : ¬(kv.2 = v)) :
    firstKeyWithValue (kv :: m) v = firstKeyWithValue m v := by
  unfold firstKeyWithValue
  rw [List.find?_cons_of_neg _ (by simp [h])]

theorem firstKey_mem {α : Type} {m : List (α × String)} {v : String} {k : α}
    (h : firstKeyWithValue m v = some k) : (k, v) ∈ m := by
  unfold firstKeyWithValue at h
  cases hf : m.find? (fun p => p.2 = v) with
  | none =>
    rw [hf] at h
    simp at h
  | some kv =>
    rw [hf] at h
    have haux := List.find?_some hf
    have h2 : kv.2 = v := of_decide_eq_true haux
    have h1 : kv.1 = k := by simpa using h
    obtain ⟨a, b⟩ := kv
    obtain rfl : a = k := h1
    obtain rfl : b = v := h2
    exact List.mem_of_find?_eq_some hf

theorem firstKey_isSome {α : Type} {m : List (α × String)} {v : String} {k : α}
    (h : (k, v) ∈ m) : ∃ k2, firstKeyWithValue m v = some k2 := by
  unfold firstKeyWithValue
  cases hf : m.find? (fun p => p.2 = v) with
  | none =>
    exact absurd (by simp : decide ((k, v).2 = v) = true)
      (List.find?_eq_none.mp hf (k, v) h)
  | some kv => exact ⟨kv.1, rfl⟩

theorem assignTokens_firstKey_stable :
    ∀ (m : List (List String × String)) (s : List String) {v : String},
      ProjectFileUtils.is_uid v = true → v ∉ s →
      firstKeyWithValue (assignTokens m s) v = firstKeyWithValue m v := by
  intro m
  induction m with
  | nil => intro s v _ _; rfl
  | cons kv t ih =>
    intro s v hvalid hvs
    rw [assignTokens_cons]
    by_cases hv : ProjectFileUtils.is_uid kv.2 = true
    · rw [if_pos hv]
      by_cases he : kv.2 = v
      · rw [firstKey_cons_of_eq he, firstKey_cons_of_eq he]
      · rw [firstKey_cons_of_ne he, firstKey_cons_of_ne he]
        exact ih s hvalid hvs
    · rw [if_neg hv]
      have he : ¬(kv.2 = v) := fun h => hv (h ▸ hvalid)
      cases s with
      | nil =>
        rw [firstKey_cons_of_ne he, firstKey_cons_of_ne he]
        exact ih [] hvalid hvs
      | cons u0 rest =>
        have hu0 : ¬(((kv.1, u0) : List String × String).2 = v) := by
          simp only []
          intro h
          exact hvs (h ▸ List.mem_cons_self _ _)
        rw [firstKey_cons_of_ne hu0, firstKey_cons_of_ne he]
        exact ih rest hvalid (fun h => hvs (List.mem_cons_of_mem _ h))

theorem assignTokens_firstKey_token :
    ∀ (m : List (List String × String)) (s : List String) {u : String}
      {k : List String},
      s.Nodup → (∀ u2 ∈ s, ∀ kv ∈ m, ¬(kv.2 = u2)) → u ∈ s →
      (k, u) ∈ assignTokens m s →
      firstKeyWithValue (assignTokens m s) u = some k := by
  intro m
  induction m with
  | nil =>
    intro s u k _ _ _ hmem
    simp [assignTokens] at hmem
  | cons kv t ih =>
    intro s u k hnd hfresh hu hmem
    rw [assignTokens_cons] at hmem ⊢
    by_cases hv : ProjectFileUtils.is_uid kv.2 = true
    · rw [if_pos hv] at hmem ⊢
      have hne : ¬(kv.2 = u) := hfresh u hu kv (List.mem_cons_self _ _)
      have hmem2 : (k, u) ∈ assignTokens t s := by
        rcases List.mem_cons.mp hmem with heq | h2
        · exact absurd (congrArg Prod.snd heq.symm) hne
        · exact h2
      rw [firstKey_cons_of_ne hne]
      exact ih s hnd (fun u2 h2 kv2 hk2 => hfresh u2 h2 kv2 (List.mem_cons_of_mem _ hk2))
        hu hmem2
    · rw [if_neg hv] at hmem ⊢
      cases s with
      | nil => simp at hu
      | cons u0 rest =>
        by_cases hu0 : u = u0
        · have hk0 : k = kv.1 := by
            rcases List.mem_cons.mp hmem with heq | h2
            · exact congrArg Prod.fst heq
            · exfalso
              rcases assignTokens_mem h2 with h3 | h3
              · exact hfresh u hu _ (List.mem_cons_of_mem _ h3) rfl
              · have : u ∈ rest := by simpa using h3
                rw [hu0] at this
                exact (List.nodup_cons.mp hnd).1 this
          rw [firstKey_cons_of_eq (by simpa using hu0.symm)]
          rw [hk0]
        · have hur : u ∈ rest := by
            rcases List.mem_cons.mp hu with h | h
            · exact absurd h hu0
            · exact h
          have hne : ¬(((kv.1, u0) : List String × String).2 = u) := by
            simp only []
            intro h
            exact hu0 h.symm
          have hmem2 : (k, u) ∈ assignTokens t rest := by
            rcases List.mem_cons.mp hmem with heq | h2
            · exact absurd (congrArg Prod.snd heq) (fun h => hu0 h)
            · exact h2
          rw [firstKey_cons_of_ne hne]
          exact ih rest (List.nodup_cons.mp hnd).2
            (fun u2 h2 kv2 hk2 =>
              hfresh u2 (List.mem_cons_of_mem _ h2) kv2 (List.mem_cons_of_mem _ hk2))
            hur hmem2

theorem keptEntry_facts {root tmpl : List String} {f : FSFile}
    {kv : List String × String}
    (h : SynchronizationService.keptEntry root tmpl f = some kv) :
    f.dir = root ++ kv.1
      ∧ ProjectFileUtils.read_project_file f = some kv.2
      ∧ (get_relative_path tmpl (f.dir ++ [projectFileName])).isSome = false := by
  unfold SynchronizationService.keptEntry at h
  by_cases h1 : (get_relative_path tmpl (f.dir ++ [projectFileName])).isSome
  · rw [if_pos h1] at h
    exact absurd h (by simp)
  · rw [if_neg h1] at h
    cases h2 : ProjectFileUtils.read_project_file f with
    | none =>
      rw [h2] at h
      exact absurd h (by simp)
    | some c =>
      rw [h2] at h
      dsimp only [] at h
      cases h3 : get_relative_path root f.dir with
      | none =>
        rw [h3] at h
        exact absurd h (by simp)
      | some rel =>
        rw [h3] at h
        dsimp only [] at h
        obtain rfl : (rel, c) = kv := Option.some.inj h
        refine ⟨?_, by simp [h2], by simpa using h1⟩
        unfold get_relative_path at h3
        by_cases hp : root.isPrefixOf f.dir
        · rw [if_pos hp] at h3
          obtain ⟨tail, htail⟩ := List.isPrefixOf_iff_prefix.mp hp
          have hrel : f.dir.drop root.length = rel := Option.some.inj h3
          rw [← htail] at hrel ⊢
          rw [List.drop_left] at hrel
          rw [hrel]
        · rw [if_neg hp] at h3
          exact absurd h3 (by simp)

theorem keptEntry_rewrite {root tmpl : List String} {f : FSFile}
    {kv : List String × String}
    (h : SynchronizationService.keptEntry root tmpl f = some kv) (u : String) :
    SynchronizationService.keptEntry root tmpl ⟨f.dir, some u⟩
      = some (kv.1, String.mk (pyStripL u.data)) := by
  obtain ⟨hdir, hread, htmpl⟩ := keptEntry_facts h
  have hrel : get_relative_path root f.dir = some kv.1 := by
    rw [hdir]
    unfold get_relative_path
    rw [if_pos (List.isPrefixOf_iff_prefix.mpr ⟨kv.1, rfl⟩), List.drop_left]
  unfold SynchronizationService.keptEntry
  dsimp only []
  rw [if_neg (by simp [htmpl])]
  rw [show ProjectFileUtils.read_project_file ⟨f.dir, some u⟩
      = some (String.mk (pyStripL u.data)) from rfl]
  dsimp only []
  rw [hrel]

theorem keptEntries_keys_nodup_aux {root tmpl : List String} :
    ∀ {l : List FSFile}, (l.map FSFile.dir).Nodup →
      ((l.filterMap (SynchronizationService.keptEntry root tmpl)).map Prod.fst).Nodup := by
  intro l
  induction l with
  | nil =>
    intro _
    simp
  | cons f t ih =>
    intro h
    rw [List.map_cons] at h
    have h' := List.nodup_cons.mp h
    rw [List.filterMap_cons]
    cases hk : SynchronizationService.keptEntry root tmpl f with
    | none => exact ih h'.2
    | some kv =>
      rw [List.map_cons]
      refine List.nodup_cons.mpr ⟨?_, ih h'.2⟩
      intro hmem
      obtain ⟨kv2, hkv2, hfst⟩ := List.mem_map.mp hmem
      obtain ⟨f2, hf2, hk2⟩ := List.mem_filterMap.mp hkv2
      have hd1 : f.dir = root ++ kv.1 := (keptEntry_facts hk).1
      have hd2 : f2.dir = root ++ kv2.1 := (keptEntry_facts hk2).1
      have hdd : f.dir = f2.dir := by rw [hd1, hd2, hfst]
      apply h'.1
      rw [hdd]
      exact List.mem_map_of_mem FSFile.dir hf2

theorem scan_eq_keptEntries {root tmpl : List String} {files : List FSFile}
    (h : (files.map FSFile.dir).Nodup) :
    SynchronizationService.scan_files_for_projects root tmpl files
      = SynchronizationService.keptEntries root tmpl files := by
  rw [scan_eq_dictOf]
  apply dictOf_eq_self
  unfold SynchronizationService.keptEntries
  apply keptEntries_keys_nodup_aux
  exact List.Nodup.sublist
    ((List.filter_sublist files).map FSFile.dir) h

theorem sync_files_without_uid_files (root : List String) :
    ∀ (m : List (List String × String)) (st : SyncState),
      (m.map Prod.fst).Nodup →
      (∀ kv ∈ m, ¬(ProjectFileUtils.is_uid kv.2 = true) →
        ∃ f ∈ st.files, f.dir = root ++ kv.1) →
      (SynchronizationService.sync_files_without_uid root m st).files
        = st.files.map (fun f =>
            match assignedTokenD root m st.supply f.dir with
            | some u => ⟨f.dir, some u⟩
            | none => f) := by
  intro m
  induction m with
  | nil =>
    intro st _ _
    have hfun : (fun f : FSFile =>
        match assignedTokenD root [] st.supply f.dir with
        | some u => (⟨f.dir, some u⟩ : FSFile)
        | none => f) = id := funext (fun f => rfl)
    rw [hfun, List.map_id]
    rfl
  | cons kv t ih =>
    intro st hkeys hex
    rw [List.map_cons] at hkeys
    have hk' := List.nodup_cons.mp hkeys
    have hfold : SynchronizationService.sync_files_without_uid root (kv :: t) st
        = SynchronizationService.sync_files_without_uid root t
            (SynchronizationService.sync_files_without_uid_step root st kv) := by
      unfold SynchronizationService.sync_files_without_uid
      rw [List.foldl_cons]
    rw [hfold]
    by_cases hv : ProjectFileUtils.is_uid kv.2 = true
    · have hstep : SynchronizationService.sync_files_without_uid_step root st kv
          = st := by
        rw [SynchronizationService.sync_files_without_uid_step, if_pos hv]
      rw [hstep, ih st hk'.2
        (fun kv2 h2 hv2 => hex kv2 (List.mem_cons_of_mem _ h2) hv2)]
      apply List.map_congr_left
      intro f _
      rw [assignedTokenD_cons, if_pos hv]
    · cases hs : st.supply with
      | nil =>
        have hstep : SynchronizationService.sync_files_without_uid_step root st kv
            = st := by
          rw [SynchronizationService.sync_files_without_uid_step, if_neg hv, hs]
        rw [hstep, ih st hk'.2
          (fun kv2 h2 hv2 => hex kv2 (List.mem_cons_of_mem _ h2) hv2)]
        apply List.map_congr_left
        intro f _
        rw [hs, assignedTokenD_cons, if_neg hv]
      | cons u rest =>
        obtain ⟨f0, hf0, hf0d⟩ := hex kv (List.mem_cons_self _ _) hv
        have hany : st.files.any (fun f => f.dir = root ++ kv.1) = true :=
          List.any_eq_true.mpr ⟨f0, hf0, by simp [hf0d]⟩
        have hW : fsWrite st.files (root ++ kv.1) u
            = st.files.map (fun f => if f.dir = root ++ kv.1
                then ⟨f.dir, some u⟩ else f) := by
          unfold fsWrite
          rw [if_pos hany]
        have hstep : SynchronizationService.sync_files_without_uid_step root st kv
            = ⟨(DatabaseService.create_project st.db
                  (leafName (root ++ kv.1)) kv.1 u).1,
                fsWrite st.files (root ++ kv.1) u, rest⟩ := by
          rw [SynchronizationService.sync_files_without_uid_step, if_neg hv, hs]
        rw [hstep]
        have hex2 : ∀ kv2 ∈ t, ¬(ProjectFileUtils.is_uid kv2.2 = true) →
            ∃ f ∈ (⟨(DatabaseService.create_project st.db
                (leafName (root ++ kv.1)) kv.1 u).1,
              fsWrite st.files (root ++ kv.1) u, rest⟩ : SyncState).files,
              f.dir = root ++ kv2.1 := by
          intro kv2 h2 hv2
          obtain ⟨f1, hf1, hd1⟩ := hex kv2 (List.mem_cons_of_mem _ h2) hv2
          show ∃ f ∈ fsWrite st.files (root ++ kv.1) u, f.dir = root ++ kv2.1
          rw [hW]
          refine ⟨_, List.mem_map_of_mem
            (fun f => if f.dir = root ++ kv.1 then (⟨f.dir, some u⟩ : FSFile) else f)
            hf1, ?_⟩
          by_cases hd : f1.dir = root ++ kv.1
          · rw [if_pos hd]
            exact hd1
          · rw [if_neg hd]
            exact hd1
        rw [ih _ hk'.2 hex2]
        dsimp only []
        rw [hW, List.map_map]
        apply List.map_congr_left
        intro f _
        dsimp only [Function.comp]
        rw [assignedTokenD_cons, if_neg hv]
        dsimp only []
        by_cases hd : f.dir = root ++ kv.1
        · rw [if_pos hd, if_pos hd.symm]
          dsimp only []
          have hnone : assignedTokenD root t rest f.dir = none := by
            apply assignedTokenD_none
            intro kv2 h2 hv2 happ
            have hkk : kv2.1 = kv.1 := by
              have h3 : root ++ kv2.1 = root ++ kv.1 := by rw [happ, hd]
              have h4 := congrArg (fun l => List.drop root.length l) h3
              simpa using h4
            exact hk'.1 (hkk ▸ List.mem_map_of_mem Prod.fst h2)
          rw [hnone]
        · rw [if_neg hd, if_neg (fun h => hd h.symm)]

theorem assignedTokenD_key_none {root : List String}
    {kv : List String × String} {t : List (List String × String)}
    (hk : kv.1 ∉ t.map Prod.fst) (s : List String) :
    assignedTokenD root t s (root ++ kv.1) = none := by
  apply assignedTokenD_none
  intro kv2 h2 _ happ
  have hkk : kv2.1 = kv.1 := by
    have h4 := congrArg (fun l => List.drop root.length l) happ
    simpa using h4
  exact hk (hkk ▸ List.mem_map_of_mem Prod.fst h2)

theorem assignedTokenD_map_eq (root : List String) :
    ∀ (m : List (List String × String)) (s : List String),
      (m.map Prod.fst).Nodup →
      m.map (fun kv => match assignedTokenD root m s (root ++ kv.1) with
        | some u => (kv.1, u)
        | none => kv) = assignTokens m s := by
  intro m
  induction m with
  | nil => intro s _; rfl
  | cons kv t ih =>
    intro s hkeys
    rw [List.map_cons] at hkeys
    have hk' := List.nodup_cons.mp hkeys
    rw [List.map_cons, assignTokens_cons]
    by_cases hv : ProjectFileUtils.is_uid kv.2 = true
    · rw [if_pos hv]
      have hhead : (match assignedTokenD root (kv :: t) s (root ++ kv.1) with
          | some u => (kv.1, u)
          | none => kv) = kv := by
        rw [assignedTokenD_cons, if_pos hv, assignedTokenD_key_none hk'.1]
      rw [hhead]
      have htail : t.map (fun kv2 =>
          match assignedTokenD root (kv :: t) s (root ++ kv2.1) with
          | some u => (kv2.1, u)
          | none => kv2)
          = t.map (fun kv2 =>
          match assignedTokenD root t s (root ++ kv2.1) with
          | some u => (kv2.1, u)
          | none => kv2) := by
        apply List.map_congr_left
        intro kv2 _
        dsimp only []
        rw [assignedTokenD_cons, if_pos hv]
      rw [htail, ih s hk'.2]
    · rw [if_neg hv]
      cases s with
      | nil =>
        dsimp only []
        have hhead : (match assignedTokenD root (kv :: t) [] (root ++ kv.1) with
            | some u => (kv.1, u)
            | none => kv) = kv := by
          rw [assignedTokenD_empty_supply]
        rw [hhead]
        have htail : t.map (fun kv2 =>
            match assignedTokenD root (kv :: t) [] (root ++ kv2.1) with
            | some u => (kv2.1, u)
            | none => kv2)
            = t.map (fun kv2 =>
            match assignedTokenD root t [] (root ++ kv2.1) with
            | some u => (kv2.1, u)
            | none => kv2) := by
          apply List.map_congr_left
          intro kv2 _
          dsimp only []
          rw [assignedTokenD_empty_supply, assignedTokenD_empty_supply]
        rw [htail, ih [] hk'.2]
      | cons u rest =>
        dsimp only []
        have hhead : (match assignedTokenD root (kv :: t) (u :: rest) (root ++ kv.1) with
            | some u2 => (kv.1, u2)
            | none => kv) = (kv.1, u) := by
          rw [assignedTokenD_cons, if_neg hv]
          dsimp only []
          rw [if_pos rfl]
        rw [hhead]
        have htail : t.map (fun kv2 =>
            match assignedTokenD root (kv :: t) (u :: rest) (root ++ kv2.1) with
            | some u2 => (kv2.1, u2)
            | none => kv2)
            = t.map (fun kv2 =>
            match assignedTokenD root t rest (root ++ kv2.1) with
            | some u2 => (kv2.1, u2)
            | none => kv2) := by
          apply List.map_congr_left
          intro kv2 h2
          dsimp only []
          rw [assignedTokenD_cons, if_neg hv]
          dsimp only []
          rw [if_neg (fun happ => hk'.1 (by
            have hkk : kv2.1 = kv.1 := by
              have h4 := congrArg (fun l => List.drop root.length l) happ
              simpa using h4.symm
            exact hkk ▸ List.mem_map_of_mem Prod.fst h2))]
        rw [htail, ih rest hk'.2]

theorem scan_after_adoption (root tmpl : List String) (F : List FSFile)
    (s : List String)
    (hdirs : (F.map FSFile.dir).Nodup)
    (hcanon : ∀ u ∈ s, canonicalUUID u = true) :
    SynchronizationService.scan_files_for_projects root tmpl
      (F.map (fun f =>
        match assignedTokenD root
            (SynchronizationService.keptEntries root tmpl F) s f.dir with
        | some u => ⟨f.dir, some u⟩
        | none => f))
      = assignTokens (SynchronizationService.keptEntries root tmpl F) s := by
  set m := SynchronizationService.keptEntries root tmpl F with hm
  set g := fun f : FSFile =>
    match assignedTokenD root m s f.dir with
    | some u => (⟨f.dir, some u⟩ : FSFile)
    | none => f with hg
  have hgdir : ∀ f, (g f).dir = f.dir := by
    intro f
    rw [hg]
    dsimp only []
    cases assignedTokenD root m s f.dir with
    | none => rfl
    | some u => rfl
  have hdirs2 : ((F.map g).map FSFile.dir).Nodup := by
    rw [List.map_map]
    have : (FSFile.dir ∘ g) = FSFile.dir := funext (fun f => hgdir f)
    rw [this]
    exact hdirs
  rw [scan_eq_keptEntries hdirs2]
  unfold SynchronizationService.keptEntries SynchronizationService.rglob
  have hpred : (fun f : FSFile => root.isPrefixOf f.dir) ∘ g
      = (fun f : FSFile => root.isPrefixOf f.dir) := by
    funext f
    show root.isPrefixOf (g f).dir = root.isPrefixOf f.dir
    rw [hgdir]
  rw [List.filter_map, hpred, List.filterMap_map]
  have hpoint : ∀ f ∈ F.filter (fun f => root.isPrefixOf f.dir),
      (SynchronizationService.keptEntry root tmpl ∘ g) f
        = (SynchronizationService.keptEntry root tmpl f).map (fun kv =>
            match assignedTokenD root m s (root ++ kv.1) with
            | some u => (kv.1, u)
            | none => kv) := by
    intro f hf
    have hfF : f ∈ F := List.mem_of_mem_filter hf
    show SynchronizationService.keptEntry root tmpl (g f) = _
    cases hA : assignedTokenD root m s f.dir with
    | none =>
      have hgf : g f = f := by
        rw [hg]
        dsimp only []
        rw [hA]
      rw [hgf]
      cases hk : SynchronizationService.keptEntry root tmpl f with
      | none => rfl
      | some kv =>
        have hfd : f.dir = root ++ kv.1 := (keptEntry_facts hk).1
        dsimp only [Option.map]
        rw [← hfd, hA]
    | some u =>
      obtain ⟨hus, kv0, hkv0, hinv, hfd⟩ := assignedTokenD_some hA
      obtain ⟨f0, hf0, hk0⟩ := List.mem_filterMap.mp (hm ▸ hkv0)
      have hf0F : f0 ∈ F := List.mem_of_mem_filter hf0
      have hf0d : f0.dir = root ++ kv0.1 := (keptEntry_facts hk0).1
      have hff0 : f = f0 :=
        List.inj_on_of_nodup_map hdirs hfF hf0F (by rw [hfd, hf0d])
      have hk : SynchronizationService.keptEntry root tmpl f = some kv0 := by
        rw [hff0]
        exact hk0
      have hgf : g f = ⟨f.dir, some u⟩ := by
        rw [hg]
        dsimp only []
        rw [hA]
      rw [hgf]
      have hrw := keptEntry_rewrite hk u
      have hstrip : String.mk (pyStripL u.data) = u := by
        rw [canonical_strip (hcanon u hus)]
      rw [hstrip] at hrw
      rw [hrw, hk]
      dsimp only [Option.map]
      have hkd : root ++ kv0.1 = f.dir := hfd.symm
      rw [hkd, hA]
  rw [List.filterMap_congr hpoint]
  rw [← List.map_filterMap]
  have hkeys : ((F.filter (fun f => root.isPrefixOf f.dir)).filterMap
      (SynchronizationService.keptEntry root tmpl)).map Prod.fst |>.Nodup := by
    apply keptEntries_keys_nodup_aux
    exact List.Nodup.sublist ((List.filter_sublist F).map FSFile.dir) hdirs
  exact assignedTokenD_map_eq root _ s hkeys

theorem mem_snapshot {db : DBState} {kv : List String × String}
    (h : kv ∈ SynchronizationService.get_projects_from_database db) :
    ∃ r ∈ db.rows, ¬(r.status = "deleted") ∧ r.path = kv.1 ∧ r.uid = kv.2 := by
  rw [snapshot_eq_dictOf] at h
  have h2 := mem_of_mem_dictOf h
  obtain ⟨r, hr, he⟩ := List.mem_map.mp h2
  unfold SynchronizationService.activeRows at hr
  refine ⟨r, List.mem_of_mem_filter hr, by simpa using List.of_mem_filter hr,
    ?_, ?_⟩
  · exact congrArg Prod.fst he
  · exact congrArg Prod.snd he

theorem get_of_filter_eq {db : DBState} {u : String} {r : ProjectRec}
    (h : db.rows.filter (fun x => x.uid = u) = [r]) :
    DatabaseService.get_project_from_uid db u = some r := by
  unfold DatabaseService.get_project_from_uid
  rw [h]

theorem get_none_of_not_singleton {db : DBState} {u : String}
    (h : ∀ r, ¬(db.rows.filter (fun x => x.uid = u) = [r])) :
    DatabaseService.get_project_from_uid db u = none := by
  unfold DatabaseService.get_project_from_uid
  generalize hfil : db.rows.filter (fun r => r.uid = u) = xs
  rw [hfil] at h
  cases xs with
  | nil => rfl
  | cons a t =>
    cases t with
    | nil => exact absurd rfl (h a)
    | cons b t2 => rfl

theorem sync_files_without_uid_pairs (root : List String) :
    ∀ (m : List (List String × String)) (st : SyncState),
      ∃ created : List ProjectRec,
        (SynchronizationService.sync_files_without_uid root m st).db.rows
            = st.db.rows ++ created
          ∧ ∀ r ∈ created, r.status = "active" ∧ r.uid ∈ st.supply
              ∧ (r.path, r.uid) ∈ assignTokens m st.supply := by
  intro m
  induction m with
  | nil =>
    intro st
    exact ⟨[], by simp [SynchronizationService.sync_files_without_uid], by simp⟩
  | cons kv t ih =>
    intro st
    unfold SynchronizationService.sync_files_without_uid at ih ⊢
    rw [List.foldl_cons, assignTokens_cons]
    by_cases h : ProjectFileUtils.is_uid kv.2 = true
    · rw [if_pos h]
      have hstep : SynchronizationService.sync_files_without_uid_step root st kv = st := by
        rw [SynchronizationService.sync_files_without_uid_step, if_pos h]
      rw [hstep]
      obtain ⟨created, hrows, hprops⟩ := ih st
      refine ⟨created, hrows, ?_⟩
      intro r hr
      obtain ⟨hst, hsup, hpair⟩ := hprops r hr
      exact ⟨hst, hsup, List.mem_cons_of_mem _ hpair⟩
    · rw [if_neg h]
      cases hsupply : st.supply with
      | nil =>
        have hstep : SynchronizationService.sync_files_without_uid_step root st kv = st := by
          rw [SynchronizationService.sync_files_without_uid_step, if_neg h, hsupply]
        rw [hstep]
        obtain ⟨created, hrows, hprops⟩ := ih st
        refine ⟨created, hrows, ?_⟩
        intro r hr
        obtain ⟨hst, hsup, hpair⟩ := hprops r hr
        rw [hsupply] at hsup hpair
        exact ⟨hst, hsup, List.mem_cons_of_mem _ hpair⟩
      | cons u rest =>
        have hstep : SynchronizationService.sync_files_without_uid_step root st kv
            = { db := (DatabaseService.create_project st.db
                  (leafName (root ++ kv.1)) kv.1 u).1,
                files := fsWrite st.files (root ++ kv.1) u, supply := rest } := by
          rw [SynchronizationService.sync_files_without_uid_step, if_neg h, hsupply]
        rw [hstep]
        obtain ⟨created, hrows, hprops⟩ := ih
          { db := (DatabaseService.create_project st.db (leafName (root ++ kv.1)) kv.1 u).1,
            files := fsWrite st.files (root ++ kv.1) u, supply := rest }
        refine ⟨(DatabaseService.create_project st.db
            (leafName (root ++ kv.1)) kv.1 u).2 :: created, ?_, ?_⟩
        · rw [hrows]
          simp [DatabaseService.create_project, List.append_assoc]
        · intro r hr
          rcases List.mem_cons.mp hr with rfl | hr2
          · exact ⟨rfl, List.mem_cons_self _ _, List.mem_cons_self _ _⟩
          · obtain ⟨hst, hsup, hpair⟩ := hprops r hr2
            exact ⟨hst, List.mem_cons_of_mem _ hsup, List.mem_cons_of_mem _ hpair⟩

theorem sync_common_uids_step_noop {t : String}
    {dbm fsm : List (List String × String)} {db : DBState} {u : String}
    (h : ∀ a b, firstKeyWithValue dbm u = some a → firstKeyWithValue fsm u = some b →
      ¬(a = b) → DatabaseService.get_project_from_uid db u = none) :
    SynchronizationService.sync_common_uids_step t dbm fsm db u = db := by
  unfold SynchronizationService.sync_common_uids_step
  cases h1 : firstKeyWithValue dbm u with
  | none => cases h2 : firstKeyWithValue fsm u <;> rfl
  | some a =>
    cases h2 : firstKeyWithValue fsm u with
    | none => rfl
    | some b =>
      dsimp only []
      by_cases hab : a ≠ b
      · rw [if_pos hab, h a b h1 h2 hab]
      · rw [if_neg hab]

theorem sync_common_uids_noop (t : String) (dbm fsm : List (List String × String))
    (db : DBState) :
    ∀ (commons : List String),
      (∀ u ∈ commons,
        SynchronizationService.sync_common_uids_step t dbm fsm db u = db) →
      SynchronizationService.sync_common_uids t commons dbm fsm db = db := by
  intro commons
  unfold SynchronizationService.sync_common_uids
  induction commons with
  | nil => intro _; rfl
  | cons u us ih =>
    intro h
    rw [List.foldl_cons, h u (List.mem_cons_self _ _)]
    exact ih (fun u2 h2 => h u2 (List.mem_cons_of_mem _ h2))

theorem sync_common_uids_track (t : String)
    (dbm fsm : List (List String × String)) :
    ∀ (commons : List String) (db : DBState) (r : ProjectRec) (u : String),
      (db.rows.map ProjectRec.id).Nodup →
      db.rows.filter (fun x => x.uid = u) = [r] →
      commons.Nodup →
      ∃ y, (SynchronizationService.sync_common_uids t commons dbm fsm db).rows.filter
          (fun x => x.uid = u) = [y]
        ∧ (u ∉ commons → y = r)
        ∧ (u ∈ commons → ∀ a b, firstKeyWithValue dbm u = some a →
            firstKeyWithValue fsm u = some b →
            (¬(a = b) → y.path = b) ∧ (a = b → y = r)) := by
  intro commons
  induction commons with
  | nil =>
    intro db r u _ hone _
    exact ⟨r, hone, fun _ => rfl, fun hu => absurd hu (by simp)⟩
  | cons u0 us ih =>
    intro db r u hids hone hnd
    have hrfil : r ∈ db.rows.filter (fun x => x.uid = u) := by
      rw [hone]
      exact List.mem_singleton.mpr rfl
    have hrmem : r ∈ db.rows := List.mem_of_mem_filter hrfil
    have hruid : r.uid = u := by simpa using List.of_mem_filter hrfil
    have hnd' := List.nodup_cons.mp hnd
    have hfold : SynchronizationService.sync_common_uids t (u0 :: us) dbm fsm db
        = SynchronizationService.sync_common_uids t us dbm fsm
            (SynchronizationService.sync_common_uids_step t dbm fsm db u0) := by
      unfold SynchronizationService.sync_common_uids
      rw [List.foldl_cons]
    rw [hfold]
    by_cases hu0 : u0 = u
    · subst hu0
      cases h1 : firstKeyWithValue dbm u0 with
      | none =>
        have hstep : SynchronizationService.sync_common_uids_step t dbm fsm db u0
            = db := by
          unfold SynchronizationService.sync_common_uids_step
          rw [h1]
        rw [hstep]
        obtain ⟨y, hy, hyout, -⟩ := ih db r u0 hids hone hnd'.2
        refine ⟨y, hy, fun h => absurd (List.mem_cons_self _ _) h, ?_⟩
        intro _ a b ha _
        exact absurd ha (by simp)
      | some a =>
        cases h2 : firstKeyWithValue fsm u0 with
        | none =>
          have hstep : SynchronizationService.sync_common_uids_step t dbm fsm db u0
              = db := by
            unfold SynchronizationService.sync_common_uids_step
            rw [h1, h2]
          rw [hstep]
          obtain ⟨y, hy, hyout, -⟩ := ih db r u0 hids hone hnd'.2
          refine ⟨y, hy, fun h => absurd (List.mem_cons_self _ _) h, ?_⟩
          intro _ a2 b2 _ hb
          exact absurd hb (by simp)
        | some b =>
          by_cases hab : a = b
          · have hstep : SynchronizationService.sync_common_uids_step t dbm fsm db u0
                = db := by
              unfold SynchronizationService.sync_common_uids_step
              rw [h1, h2]
              dsimp only []
              rw [if_neg (show ¬(a ≠ b) from fun h => h hab)]
            rw [hstep]
            obtain ⟨y, hy, hyout, -⟩ := ih db r u0 hids hone hnd'.2
            have hyr : y = r := hyout hnd'.1
            refine ⟨y, hy, fun h => absurd (List.mem_cons_self _ _) h, ?_⟩
            intro _ a2 b2 ha hb
            have haa : a2 = a := (Option.some.inj ha).symm
            have hbb : b2 = b := (Option.some.inj hb).symm
            exact ⟨fun hne => absurd (haa.trans (hab.trans hbb.symm)) hne,
              fun _ => hyr⟩
          · have hget : DatabaseService.get_project_from_uid db u0 = some r :=
              get_of_filter_eq hone
            obtain ⟨r2, hr2mem, hid2, huid2, hpath2, -⟩ :=
              sync_common_uids_step_updates (t := t) h1 h2 hab hget
            have hlen : (((SynchronizationService.sync_common_uids_step t dbm fsm
                db u0).rows).filter (fun x => x.uid = u0)).length = 1 := by
              have hf2 := forall₂_core_filter_uid (U := u0)
                (sync_common_uids_step_core t dbm fsm db u0)
              have hl := hf2.length_eq
              rw [hone] at hl
              simpa using hl.symm
            have hfil2 : ((SynchronizationService.sync_common_uids_step t dbm fsm
                db u0).rows).filter (fun x => x.uid = u0) = [r2] :=
              length_one_mem_eq hlen (List.mem_filter.mpr ⟨hr2mem,
                by simp [huid2, hruid]⟩)
            have hids2 : (((SynchronizationService.sync_common_uids_step t dbm fsm
                db u0).rows).map ProjectRec.id).Nodup := by
              rw [forall₂_core_map_id (sync_common_uids_step_core t dbm fsm db u0)]
              exact hids
            obtain ⟨y, hy, hyout, -⟩ := ih _ r2 u0 hids2 hfil2 hnd'.2
            have hyr2 : y = r2 := hyout hnd'.1
            refine ⟨y, hy, fun h => absurd (List.mem_cons_self _ _) h, ?_⟩
            intro _ a2 b2 ha hb
            have hbb : b2 = b := (Option.some.inj hb).symm
            have haa : a2 = a := (Option.some.inj ha).symm
            refine ⟨fun _ => ?_, fun heq => ?_⟩
            · rw [hyr2, hpath2, hbb]
            · exfalso
              exact hab ((haa.symm.trans heq).trans hbb)
    · have hpres : r ∈ (SynchronizationService.sync_common_uids_step t dbm fsm
          db u0).rows :=
        sync_common_uids_step_preserves hids hrmem
          (by rw [hruid]; exact fun h => hu0 h.symm)
      have hlen : (((SynchronizationService.sync_common_uids_step t dbm fsm
          db u0).rows).filter (fun x => x.uid = u)).length = 1 := by
        have hf2 := forall₂_core_filter_uid (U := u)
          (sync_common_uids_step_core t dbm fsm db u0)
        have hl := hf2.length_eq
        rw [hone] at hl
        simpa using hl.symm
      have hfil2 : ((SynchronizationService.sync_common_uids_step t dbm fsm
          db u0).rows).filter (fun x => x.uid = u) = [r] :=
        length_one_mem_eq hlen (List.mem_filter.mpr ⟨hpres, by simp [hruid]⟩)
      have hids2 : (((SynchronizationService.sync_common_uids_step t dbm fsm
          db u0).rows).map ProjectRec.id).Nodup := by
        rw [forall₂_core_map_id (sync_common_uids_step_core t dbm fsm db u0)]
        exact hids
      obtain ⟨y, hy, hyout, hyin⟩ := ih _ r u hids2 hfil2 hnd'.2
      refine ⟨y, hy, ?_, ?_⟩
      · intro h
        exact hyout (fun h2 => h (List.mem_cons_of_mem _ h2))
      · intro hmem a b ha hb
        have hmem2 : u ∈ us := by
          rcases List.mem_cons.mp hmem with h | h
          · exact absurd h.symm hu0
          · exact h
        exact hyin hmem2 a b ha hb

/-- C7 (amended): running a reconciliation pass twice in a row, with no
filesystem or catalog change between the two runs, produces no mutation at
all during the second run — the catalog, the sentinel files and the token
supply all come out unchanged — provided the starting state is
well-formed: no two non-deleted records share a path (the counterexample
shows the claim fails otherwise), record ids are unique, no two sentinel
files share a directory, and the fresh-token supply holds enough pairwise
distinct canonical tokens that collide with no existing identity in the
catalog or on disk. -/
theorem run_pass_idempotent (root tmpl : List String) (st : SyncState)
    (hids : (st.db.rows.map ProjectRec.id).Nodup)
    (hpaths : ((SynchronizationService.activeRows st.db).map ProjectRec.path).Nodup)
    (hdirs : (st.files.map FSFile.dir).Nodup)
    (hcount : invalidCount (SynchronizationService.scan_files_for_projects root tmpl
      st.files) ≤ st.supply.length)
    (hcanon : ∀ u ∈ st.supply, canonicalUUID u = true)
    (hsnd : st.supply.Nodup)
    (hfreshdb : ∀ u ∈ st.supply, ∀ x ∈ st.db.rows, ¬(x.uid = u))
    (hfreshfs : ∀ u ∈ st.supply,
      ∀ kv ∈ SynchronizationService.scan_files_for_projects root tmpl st.files,
        ¬(kv.2 = u)) :
    SynchronizationService.run_pass root tmpl
        (SynchronizationService.run_pass root tmpl st)
      = SynchronizationService.run_pass root tmpl st := by
  set m₁ := SynchronizationService.scan_files_for_projects root tmpl st.files
    with hm₁def
  set dbm := SynchronizationService.get_projects_from_database st.db with hdbmdef
  set common := (SynchronizationService.validUidSet dbm).filter
    (fun u => u ∈ SynchronizationService.validUidSet m₁) with hcommondef
  set db1 := SynchronizationService.sync_common_uids (leafName tmpl) common dbm m₁
    st.db with hdb1def
  set S := SynchronizationService.run_pass root tmpl st with hSdef
  have hS : S = SynchronizationService.sync_files_without_uid root m₁
      ⟨db1, st.files, st.supply⟩ := rfl
  have hkeys1 : (m₁.map Prod.fst).Nodup := by
    rw [hm₁def, scan_eq_dictOf]
    exact dictOf_keys_nodup _
  have hm₁kept : m₁ = SynchronizationService.keptEntries root tmpl st.files := by
    rw [hm₁def]
    exact scan_eq_keptEntries hdirs
  have hex1 : ∀ kv ∈ m₁, ¬(ProjectFileUtils.is_uid kv.2 = true) →
      ∃ f ∈ st.files, f.dir = root ++ kv.1 := by
    intro kv hkv _
    rw [hm₁kept] at hkv
    unfold SynchronizationService.keptEntries at hkv
    obtain ⟨f, hf, hkf⟩ := List.mem_filterMap.mp hkv
    have hfF : f ∈ st.files := by
      unfold SynchronizationService.rglob at hf
      exact List.mem_of_mem_filter hf
    exact ⟨f, hfF, (keptEntry_facts hkf).1⟩
  have hSfiles : S.files = st.files.map (fun f =>
      match assignedTokenD root m₁ st.supply f.dir with
      | some u => ⟨f.dir, some u⟩
      | none => f) :=
    sync_files_without_uid_files root m₁ ⟨db1, st.files, st.supply⟩ hkeys1 hex1
  have hscan2 : SynchronizationService.scan_files_for_projects root tmpl S.files
      = assignTokens m₁ st.supply := by
    rw [hSfiles]
    have h := scan_after_adoption root tmpl st.files st.supply hdirs hcanon
    rw [← hm₁kept] at h
    exact h
  have hvalid2 : ∀ kv ∈ assignTokens m₁ st.supply,
      ProjectFileUtils.is_uid kv.2 = true :=
    assignTokens_all_valid m₁ st.supply hcanon hcount
  obtain ⟨created, hrows0, hprops⟩ :=
    sync_files_without_uid_pairs root m₁ ⟨db1, st.files, st.supply⟩
  have hrows2 : S.db.rows = db1.rows ++ created := hrows0
  have hprops2 : ∀ r ∈ created, r.status = "active" ∧ r.uid ∈ st.supply
      ∧ (r.path, r.uid) ∈ assignTokens m₁ st.supply := hprops
  have hdbm1 : dbm = (SynchronizationService.activeRows st.db).map
      (fun r => (r.path, r.uid)) := by
    rw [hdbmdef, snapshot_eq_dictOf]
    exact dictOf_eq_self (by rw [List.map_map]; exact hpaths)
  have hcommonnd : common.Nodup := List.Nodup.filter _ (validUidSet_nodup dbm)
  have hcommon_noop : SynchronizationService.sync_common_uids (leafName tmpl)
      ((SynchronizationService.validUidSet
          (SynchronizationService.get_projects_from_database S.db)).filter
        (fun u => u ∈ SynchronizationService.validUidSet
          (assignTokens m₁ st.supply)))
      (SynchronizationService.get_projects_from_database S.db)
      (assignTokens m₁ st.supply) S.db = S.db := by
    apply sync_common_uids_noop
    intro u hu
    apply sync_common_uids_step_noop
    intro a b ha hb hab
    have hu1 : u ∈ SynchronizationService.validUidSet
        (SynchronizationService.get_projects_from_database S.db) :=
      List.mem_of_mem_filter hu
    have hu2 : u ∈ SynchronizationService.validUidSet (assignTokens m₁ st.supply) := by
      simpa using List.of_mem_filter hu
    have hvu : ProjectFileUtils.is_uid u = true := (mem_validUidSet.mp hu1).2
    obtain ⟨w, hw, hwst, hwpath0, hwuid0⟩ := mem_snapshot (firstKey_mem ha)
    have hwpath : w.path = a := hwpath0
    have hwuid : w.uid = u := hwuid0
    rw [hrows2] at hw
    by_cases hus : u ∈ st.supply
    · -- a freshly assigned token: the one created record and the one
      -- written sentinel agree on the path, so the two keys cannot differ
      exfalso
      rcases List.mem_append.mp hw with hw1 | hw2
      · obtain ⟨x, hx, hxe⟩ := forall₂_core_mem_right
          (sync_common_uids_core _ _ _ _ st.db) w hw1
        exact hfreshdb u hus x hx (hxe.symm.trans hwuid)
      · obtain ⟨-, -, hpair⟩ := hprops2 w hw2
        rw [hwuid] at hpair
        have hfk : firstKeyWithValue (assignTokens m₁ st.supply) u = some w.path :=
          assignTokens_firstKey_token m₁ st.supply hsnd hfreshfs hus hpair
        have hbw : b = w.path := Option.some.inj (hb.symm.trans hfk)
        exact hab (hwpath.symm.trans hbw.symm)
    · -- an identity that predates the pass
      have hu2' : u ∈ SynchronizationService.validUidSet m₁ := by
        obtain ⟨⟨kvf, hkvf, hkvfe⟩, -⟩ := mem_validUidSet.mp hu2
        have hkvm1 : kvf ∈ m₁ := by
          rcases assignTokens_mem hkvf with h | h
          · exact h
          · exact absurd (hkvfe ▸ h) hus
        exact mem_validUidSet.mpr ⟨⟨kvf, hkvm1, hkvfe⟩, hvu⟩
      have hw1 : w ∈ db1.rows := by
        rcases List.mem_append.mp hw with h | h
        · exact h
        · obtain ⟨-, hsupw, -⟩ := hprops2 w h
          exact absurd (hwuid ▸ hsupw) hus
      by_cases hone : ∃ r0, st.db.rows.filter (fun z => z.uid = u) = [r0]
      · exfalso
        obtain ⟨r0, hr0⟩ := hone
        have hr0fil : r0 ∈ st.db.rows.filter (fun z => z.uid = u) := by
          rw [hr0]
          exact List.mem_singleton.mpr rfl
        have hr0mem : r0 ∈ st.db.rows := List.mem_of_mem_filter hr0fil
        have hr0uid : r0.uid = u := by simpa using List.of_mem_filter hr0fil
        obtain ⟨y, hyfil, hyout, hyin⟩ := sync_common_uids_track (leafName tmpl)
          dbm m₁ common st.db r0 u hids hr0 hcommonnd
        have hyfil2 : db1.rows.filter (fun z => z.uid = u) = [y] := hyfil
        have hwy : w = y := by
          have hwf : w ∈ db1.rows.filter (fun z => z.uid = u) :=
            List.mem_filter.mpr ⟨hw1, by simp [hwuid]⟩
          rw [hyfil2] at hwf
          exact List.mem_singleton.mp hwf
        have hcore : RowCoreEq r0 y := by
          have hf2 := forall₂_core_filter_uid (U := u)
            (sync_common_uids_core (leafName tmpl) common dbm m₁ st.db)
          rw [hr0] at hf2
          rw [show (SynchronizationService.sync_common_uids (leafName tmpl) common
              dbm m₁ st.db).rows.filter (fun x => x.uid = u) = [y] from hyfil2] at hf2
          exact (List.forall₂_cons.mp hf2).1
        have hr0st : ¬(r0.status = "deleted") := by
          have : y.status = r0.status := hcore.2.2.1
          rw [← this, ← hwy]
          exact hwst
        have hmemdbm : (r0.path, u) ∈ dbm := by
          rw [hdbm1]
          refine List.mem_map.mpr ⟨r0, ?_, by rw [hr0uid]⟩
          unfold SynchronizationService.activeRows
          exact List.mem_filter.mpr ⟨hr0mem, by simp [hr0st]⟩
        have halldbm : ∀ kv ∈ dbm, kv.2 = u → kv.1 = r0.path := by
          intro kv hkv hkvu
          rw [hdbm1] at hkv
          obtain ⟨z, hz, rfl⟩ := List.mem_map.mp hkv
          have hzmem : z ∈ st.db.rows := by
            unfold SynchronizationService.activeRows at hz
            exact List.mem_of_mem_filter hz
          have hzfil : z ∈ st.db.rows.filter (fun x => x.uid = u) :=
            List.mem_filter.mpr ⟨hzmem, by simpa using hkvu⟩
          rw [hr0] at hzfil
          rw [List.mem_singleton.mp hzfil]
        have hfkdbm : firstKeyWithValue dbm u = some r0.path :=
          firstKey_of_unique hmemdbm halldbm
        have hkvm1u : ∃ k, (k, u) ∈ m₁ := by
          obtain ⟨⟨kvf, hkvf, hkvfe⟩, -⟩ := mem_validUidSet.mp hu2'
          exact ⟨kvf.1, by rw [← hkvfe]; exact hkvf⟩
        obtain ⟨k0, hk0⟩ := hkvm1u
        obtain ⟨B, hfkm1⟩ := firstKey_isSome hk0
        have hucommon : u ∈ common := by
          rw [hcommondef]
          refine List.mem_filter.mpr ⟨?_, by simp [hu2']⟩
          exact mem_validUidSet.mpr ⟨⟨(r0.path, u), hmemdbm, rfl⟩, hvu⟩
        have hvisit := hyin hucommon r0.path B hfkdbm hfkm1
        have hbB : b = B := by
          have hstable := assignTokens_firstKey_stable m₁ st.supply hvu hus
          exact Option.some.inj (hb.symm.trans (hstable.trans hfkm1))
        have hyb : y.path = B := by
          by_cases hab1 : r0.path = B
          · rw [hvisit.2 hab1]
            exact hab1
          · exact hvisit.1 hab1
        have hay : a = y.path := by
          rw [← hwy]
          exact hwpath.symm
        exact hab (hay.trans (hyb.trans hbB.symm))
      · apply get_none_of_not_singleton
        intro r0' hr0'
        rw [hrows2, List.filter_append] at hr0'
        have hfc : created.filter (fun x => x.uid = u) = [] := by
          rw [List.filter_eq_nil_iff]
          intro z hz
          obtain ⟨-, hsupz, -⟩ := hprops2 z hz
          simp only [decide_eq_true_eq]
          intro hzu
          exact hus (hzu ▸ hsupz)
        rw [hfc, List.append_nil] at hr0'
        have hf2 := forall₂_core_filter_uid (U := u)
          (sync_common_uids_core (leafName tmpl) common dbm m₁ st.db)
        have hlen := hf2.length_eq
        rw [show (SynchronizationService.sync_common_uids (leafName tmpl) common
            dbm m₁ st.db).rows.filter (fun x => x.uid = u) = [r0'] from hr0'] at hlen
        obtain ⟨x0, hx0⟩ := List.length_eq_one.mp (by simpa using hlen)
        exact hone ⟨x0, hx0⟩
  have hrp2 : SynchronizationService.run_pass root tmpl S
      = SynchronizationService.sync_files_without_uid root
          (SynchronizationService.scan_files_for_projects root tmpl S.files)
          ⟨SynchronizationService.sync_common_uids (leafName tmpl)
              ((SynchronizationService.validUidSet
                  (SynchronizationService.get_projects_from_database S.db)).filter
                (fun u => u ∈ SynchronizationService.validUidSet
                  (SynchronizationService.scan_files_for_projects root tmpl S.files)))
              (SynchronizationService.get_projects_from_database S.db)
              (SynchronizationService.scan_files_for_projects root tmpl S.files)
              S.db,
            S.files, S.supply⟩ := rfl
  rw [hrp2, hscan2, hcommon_noop,
    sync_files_without_uid_all_valid hvalid2]

/-- C7 witness: on the concrete adoption scenario (one untokened sentinel,
one fresh token) the second reconciliation pass changes nothing. -/
theorem run_pass_idempotent_witness :
    SynchronizationService.run_pass ["R"] ["T"]
        (SynchronizationService.run_pass ["R"] ["T"] stAdopt)
      = SynchronizationService.run_pass ["R"] ["T"] stAdopt :=
  run_pass_idempotent ["R"] ["T"] stAdopt (by decide) (by decide) (by decide)
    (by decide) (by decide) (by decide) (by decide) (by decide)

example : canonicalUUID "11111111-1111-1111-1111-111111111111" = true := by decide
example : canonicalUUID "11111111-1111-1111-1111-11111111111" = false := by decide
example : ProjectFileUtils.is_uid "11111111-1111-1111-1111-111111111111" = true := by decide
example : ProjectFileUtils.is_uid "" = false := by decide
example : ProjectFileUtils.is_uid "11111111111111111111111111111111" = true := by decide
example : ProjectFileUtils.is_uid " 11111111-1111-1111-1111-111111111111 " = false := by decide
example : ProjectFileUtils.is_uid "hello" = false := by decide

end GeoOffice
